import Mathlib

/-!
Shallow embedding of `src/logsrvd/iolog_writer.c` (sudo's log-server I/O log
writer).  File contents are modelled as lists of characters (one `Char` per
byte), the six per-session log files (stdin, stdout, stderr, ttyin, ttyout,
timing) as a record of optional contents (`none` = the file does not exist /
its descriptor is -1), and the connection closure as files plus the running
`elapsed_time`.  Fallible C functions become `Option`- or code-returning Lean
functions.  Loops are modelled with explicit fuel chosen large enough (proved
sufficient where needed), so every definition is executable.
-/

namespace IologWriter

/-- A `struct timespec` style value, as a pair (seconds, nanoseconds). -/
abbrev TS := Int × Int

/-- Decimal digits of a natural number, most significant first: the digit
loop inside printf's integer conversion, with explicit fuel. -/
def decNatAux : Nat → Nat → List Char
  | 0, _ => []
  | f + 1, n =>
    if n < 10 then [Nat.digitChar n]
    else decNatAux f (n / 10) ++ [Nat.digitChar (n % 10)]

/-- Decimal rendering of a natural number (fuel `n+1` always suffices for
values a C program can hold). -/
def decNat (n : Nat) : List Char := decNatAux (n + 1) n

/-- Decimal rendering of an integer: printf `%d` / `%lld` / `%zu`. -/
def decInt (i : Int) : List Char :=
  if i < 0 then '-' :: decNat (-i).toNat else decNat i.toNat

/-- Left-pad a digit string with zeros up to width `w`. -/
def padZeros (w : Nat) (s : List Char) : List Char :=
  List.replicate (w - s.length) '0' ++ s

/-- printf `"%09d"`: minimum field width 9, zero padded, the sign counted
inside the width. -/
def fmt09d (n : Int) : List Char :=
  if n < 0 then '-' :: padZeros 8 (decNat (-n).toNat) else padZeros 9 (decNat n.toNat)

/-- The C cast `(int)` applied to a wider integer: wrap into [-2^31, 2^31). -/
def toInt32 (n : Int) : Int := (n + 2 ^ 31) % 2 ^ 32 - 2 ^ 31

/-- Newline character. -/
def nl : Char := '\n'

/-- Modelled from the spec: the control-event kind used by `store_suspend`
(`IO_EVENT_SUSPEND` is declared in `iolog_util.h`, which is not part of the
sources; the spec fixes control events to kind 5). -/
def IO_EVENT_SUSPEND : Int := 5

/-- Modelled from the spec: the control-event kind used by `store_winsize`
(`IO_EVENT_WINSIZE` is declared in `iolog_util.h`, which is not part of the
sources; the spec fixes control events to kind 5). -/
def IO_EVENT_WINSIZE : Int := 5

/-- The timing line written by `store_iobuf`:
`snprintf(tbuf, sizeof(tbuf), "%d %lld.%09d %zu\n", iofd, sec, (int)nsec, len)`. -/
def fmt_iobuf (iofd : Int) (delay : TS) (len : Nat) : List Char :=
  decInt iofd ++ [' '] ++ decInt delay.1 ++ ['.'] ++ fmt09d (toInt32 delay.2) ++
    [' '] ++ decNat len ++ [nl]

/-- The timing line written by `store_suspend`:
`snprintf(tbuf, sizeof(tbuf), "%d %lld.%09d %s\n", IO_EVENT_SUSPEND, sec, (int)nsec, signal)`. -/
def fmt_suspend (delay : TS) (sig : List Char) : List Char :=
  decInt IO_EVENT_SUSPEND ++ [' '] ++ decInt delay.1 ++ ['.'] ++ fmt09d (toInt32 delay.2) ++
    [' '] ++ sig ++ [nl]

/-- The timing line written by `store_winsize`:
`snprintf(tbuf, sizeof(tbuf), "%d %lld.%09d %d %d\n", IO_EVENT_WINSIZE, sec, (int)nsec, rows, cols)`. -/
def fmt_winsize (delay : TS) (rows cols : Int) : List Char :=
  decInt IO_EVENT_WINSIZE ++ [' '] ++ decInt delay.1 ++ ['.'] ++ fmt09d (toInt32 delay.2) ++
    [' '] ++ decInt rows ++ [' '] ++ decInt cols ++ [nl]

/-- The body of `update_elapsed_time`'s `while (nsec >= 1000000000)` carry
loop, with explicit fuel (the caller passes fuel that is provably enough). -/
def carryAux : Nat → Int → Int → TS
  | 0, s, n => (s, n)
  | f + 1, s, n =>
    if n ≥ 1000000000 then carryAux f (s + 1) (n - 1000000000) else (s, n)

/-- `update_elapsed_time(delta, elapsed)`: add component-wise, then carry
seconds while the nanosecond field is at least 10^9. -/
def update_elapsed_time (delta : TS) (elapsed : TS) : TS :=
  carryAux (elapsed.2 + delta.2).toNat (elapsed.1 + delta.1) (elapsed.2 + delta.2)

/-- `sudo_timespecadd(a, b)`: component-wise add with a single carry
(operands are normalised timespecs). -/
def sudo_timespecadd (a b : TS) : TS :=
  let s := a.1 + b.1
  let n := a.2 + b.2
  if n ≥ 1000000000 then (s + 1, n - 1000000000) else (s, n)

/-- `sudo_timespeccmp(a, b, >=)`: compare seconds first, nanoseconds on a tie. -/
def tsGeb (a b : TS) : Bool :=
  if a.1 = b.1 then decide (a.2 ≥ b.2) else decide (a.1 ≥ b.1)

/-- The six per-session log files, in the fixed order of `iolog_names`:
stdin, stdout, stderr, ttyin, ttyout, timing.  `none` models both "the file
does not exist" and "its descriptor in `io_fds` is -1" (the two coincide in
every reachable closure state). -/
structure Files where
  f0 : Option (List Char)
  f1 : Option (List Char)
  f2 : Option (List Char)
  f3 : Option (List Char)
  f4 : Option (List Char)
  f5 : Option (List Char)
deriving DecidableEq, Repr

/-- Read slot `i` of `io_fds`.  An out-of-range index yields `none`: the C
code's out-of-range array read is undefined behaviour, and every caller
either range-checks first or fails on `none` just as it would on -1. -/
def Files.get (fs : Files) (i : Int) : Option (List Char) :=
  if i = 0 then fs.f0 else if i = 1 then fs.f1 else if i = 2 then fs.f2
  else if i = 3 then fs.f3 else if i = 4 then fs.f4 else if i = 5 then fs.f5
  else none

/-- Write slot `i` of `io_fds` (no effect out of range). -/
def Files.set (fs : Files) (i : Int) (v : Option (List Char)) : Files :=
  if i = 0 then { fs with f0 := v } else if i = 1 then { fs with f1 := v }
  else if i = 2 then { fs with f2 := v } else if i = 3 then { fs with f3 := v }
  else if i = 4 then { fs with f4 := v } else if i = 5 then { fs with f5 := v }
  else fs

/-- The part of `struct connection_closure` the writer uses: the log files
and the running elapsed time. -/
structure Closure where
  files : Files
  elapsed : TS
deriving DecidableEq, Repr

/-- `iolog_open(iofd, closure)`: range-check the descriptor index, then
`openat(dir_fd, iolog_names[iofd], O_CREAT|O_EXCL|O_WRONLY, 0600)` — the
open fails if the file already exists (O_EXCL), otherwise it creates the
file empty. -/
def iolog_open (iofd : Int) (c : Closure) : Option Closure :=
  if iofd < 0 ∨ iofd ≥ 6 then none
  else
    match c.files.get iofd with
    | some _ => none
    | none => some { c with files := c.files.set iofd (some []) }

/-- `iolog_write(iofd, buf, len, closure)`: range-check, then `write` the
whole buffer to the descriptor; a write on a missing descriptor fails. -/
def iolog_write (iofd : Int) (buf : List Char) (c : Closure) : Option Closure :=
  if iofd < 0 ∨ iofd ≥ 6 then none
  else
    match c.files.get iofd with
    | none => none
    | some content => some { c with files := c.files.set iofd (some (content ++ buf)) }

/-- `store_iobuf(iofd, msg, closure)`: open the log file if needed, format
the timing line, write the payload to the stream, write the timing line to
the timing file, and finally update the elapsed time.  Returns the C return
code, the final closure, and the trace of successful `write` calls in
program order (descriptor index paired with the bytes written). -/
def store_iobuf (iofd : Int) (delay : TS) (data : List Char) (c : Closure) :
    Int × Closure × List (Int × List Char) :=
  match (if c.files.get iofd = none then iolog_open iofd c else some c) with
  | none => (-1, c, [])
  | some c1 =>
    let tbuf := fmt_iobuf iofd delay data.length
    if tbuf.length ≥ 1024 then (-1, c1, [])
    else
      match iolog_write iofd data c1 with
      | none => (-1, c1, [])
      | some c2 =>
        match iolog_write 5 tbuf c2 with
        | none => (-1, c2, [(iofd, data)])
        | some c3 =>
          (0, { c3 with elapsed := update_elapsed_time delay c3.elapsed },
            [(iofd, data), (5, tbuf)])

/-- `store_suspend(msg, closure)`: format the suspend timing line, write it
to the timing file, update the elapsed time. -/
def store_suspend (delay : TS) (sig : List Char) (c : Closure) : Int × Closure :=
  let tbuf := fmt_suspend delay sig
  if tbuf.length ≥ 1024 then (-1, c)
  else
    match iolog_write 5 tbuf c with
    | none => (-1, c)
    | some c2 => (0, { c2 with elapsed := update_elapsed_time delay c2.elapsed })

/-- `store_winsize(msg, closure)`: format the winsize timing line, write it
to the timing file, update the elapsed time. -/
def store_winsize (delay : TS) (rows cols : Int) (c : Closure) : Int × Closure :=
  let tbuf := fmt_winsize delay rows cols
  if tbuf.length ≥ 1024 then (-1, c)
  else
    match iolog_write 5 tbuf c with
    | none => (-1, c)
    | some c2 => (0, { c2 with elapsed := update_elapsed_time delay c2.elapsed })

/-- The value case of a decoded `InfoMessage`. -/
inductive IVal where
  | num (v : Int)
  | str (s : String)
  | strlist (l : List String)
deriving DecidableEq, Repr

/-- A decoded `InfoMessage`: a key with a numeric, string, or string-list value. -/
structure Info where
  key : String
  val : IVal
deriving DecidableEq, Repr

/-- The fields of a decoded `ExecMessage` that `iolog_details_fill` consumes. -/
structure ExecMessage where
  start_time : Int
  info_msgs : List Info
deriving DecidableEq, Repr

/-- `struct iolog_details` (strings are shallow references in C; here they
are optional values, `none` meaning the NULL left by the initial memset). -/
structure Details where
  start_time : Int
  lines : Int
  columns : Int
  command : Option String
  cwd : Option String
  runuser : Option String
  rungroup : Option String
  submituser : Option String
  submithost : Option String
  ttyname : Option String
  argv : List String
deriving DecidableEq, Repr

/-- One iteration of `iolog_details_fill`'s key dispatch.  The C switches on
`key[0]` and then uses `strcmp`; since the compared keys are pairwise
distinct this is equivalent to the plain chain of string comparisons below. -/
def applyInfo (d : Details) (info : Info) : Details :=
  if info.key = "columns" then
    match info.val with
    | .num v => if v ≤ 0 ∨ v > 2147483647 then d else { d with columns := v }
    | _ => d
  else if info.key = "command" then
    match info.val with
    | .str s => { d with command := some s }
    | _ => d
  else if info.key = "cwd" then
    match info.val with
    | .str s => { d with cwd := some s }
    | _ => d
  else if info.key = "lines" then
    match info.val with
    | .num v => if v ≤ 0 ∨ v > 2147483647 then d else { d with lines := v }
    | _ => d
  else if info.key = "runargv" then
    match info.val with
    | .strlist l => { d with argv := l }
    | _ => d
  else if info.key = "rungroup" then
    match info.val with
    | .str s => { d with rungroup := some s }
    | _ => d
  else if info.key = "runuser" then
    match info.val with
    | .str s => { d with runuser := some s }
    | _ => d
  else if info.key = "submithost" then
    match info.val with
    | .str s => { d with submithost := some s }
    | _ => d
  else if info.key = "submituser" then
    match info.val with
    | .str s => { d with submituser := some s }
    | _ => d
  else if info.key = "ttyname" then
    match info.val with
    | .str s => { d with ttyname := some s }
    | _ => d
  else d

/-- `iolog_details_fill(details, msg)`: zero the details, set the defaults
(lines 24, columns 80), fold the info messages, then check that the
required `submituser`, `submithost` and `command` were all supplied. -/
def iolog_details_fill (msg : ExecMessage) : Bool × Details :=
  let d0 : Details :=
    { start_time := msg.start_time, lines := 24, columns := 80,
      command := none, cwd := none, runuser := none, rungroup := none,
      submituser := none, submithost := none, ttyname := none, argv := [] }
  let d := msg.info_msgs.foldl applyInfo d0
  (d.submituser.isSome && d.submithost.isSome && d.command.isSome, d)

/-- The directory part of the filesystem: the set of directories that exist. -/
structure DirFS where
  dirs : List String
deriving DecidableEq, Repr

/-- `mkdir(path, 0755)` with `EEXIST` tolerated: ensure the directory exists. -/
def mkdirE (p : String) (fs : DirFS) : DirFS :=
  if p ∈ fs.dirs then fs else { dirs := p :: fs.dirs }

/-- `PATH_MAX`, the size of the on-stack path buffer. -/
def PATH_MAX : Nat := 4096

/-- `create_iolog_dir(details, closure)`: create `root`, `root/host`,
`root/host/user` (each tolerating EEXIST), length-check each `snprintf`
against `PATH_MAX`, create the unique leaf via `mkdtemp` (modelled by the
caller-supplied fresh `suffix` replacing the `XXXXXX` template), `strdup`
the path, and open the directory descriptor — `openOk` injects the success
or failure of that final `open`.  Returns the leaf path on success and the
resulting directory state on every path. -/
def create_iolog_dir (root host user suffix : String) (openOk : Bool) (fs : DirFS) :
    Option String × DirFS :=
  let fs1 := mkdirE root fs
  let p1 := root ++ "/" ++ host
  if p1.length ≥ PATH_MAX then (none, fs1)
  else
    let fs2 := mkdirE p1 fs1
    let p2 := p1 ++ "/" ++ user
    if p2.length ≥ PATH_MAX then (none, fs2)
    else
      let fs3 := mkdirE p2 fs2
      let tmpl := p2 ++ "/XXXXXX"
      if tmpl.length ≥ PATH_MAX then (none, fs3)
      else
        let leaf := p2 ++ "/" ++ suffix
        let fs4 := mkdirE leaf fs3
        if openOk then (some leaf, fs4) else (none, fs4)

/-- `RUNAS_DEFAULT`. -/
def RUNAS_DEFAULT : String := "root"

/-- `iolog_details_write(details, closure)`: the content of the `log` info
file (the file is created `O_CREAT|O_EXCL` inside the fresh leaf directory,
where it cannot already exist, and no write error is injected, so only the
content is modelled). -/
def iolog_details_write (d : Details) : List Char :=
  decInt d.start_time ++
    (":" ++ (d.submituser.getD "") ++ ":" ++ (d.runuser.getD RUNAS_DEFAULT) ++ ":" ++
      (d.rungroup.getD "") ++ ":" ++ (d.ttyname.getD "unknown") ++ ":").toList ++
    decInt d.lines ++ [':'] ++ decInt d.columns ++ [nl] ++
    ((d.cwd.getD "unknown")).toList ++ [nl] ++
    ((d.command.getD "")).toList ++
    ((d.argv.drop 1).foldl (fun acc a => acc ++ ' ' :: a.toList) []) ++ [nl]

/-- `iolog_init(msg, closure)`: initialise all six `io_fds` to -1, fill the
details, create the I/O log directory, write the `log` info file, and create
the timing, stdout, stderr and ttyout files.  Returns the directory state,
leaf path, `log` content, and session closure on success. -/
def iolog_init (msg : ExecMessage) (root suffix : String) (openOk : Bool) (fs : DirFS) :
    Option (DirFS × String × List Char × Closure) :=
  let c0 : Closure := { files := ⟨none, none, none, none, none, none⟩, elapsed := (0, 0) }
  match iolog_details_fill msg with
  | (false, _) => none
  | (true, d) =>
    match create_iolog_dir root (d.submithost.getD "") (d.submituser.getD "") suffix openOk fs with
    | (none, _) => none
    | (some leaf, fs1) =>
      let logContent := iolog_details_write d
      match iolog_open 5 c0 with
      | none => none
      | some c1 =>
        match iolog_open 1 c1 with
        | none => none
        | some c2 =>
          match iolog_open 2 c2 with
          | none => none
          | some c3 =>
            match iolog_open 4 c3 with
            | none => none
            | some c4 => some (fs1, leaf, logContent, c4)

/-- `LINE_MAX`, the size of the on-stack line buffer in `read_timing_record`. -/
def LINE_MAX : Nat := 2048

/-- `fgets(line, LINE_MAX, fp)` on remaining stream content `s`: the bytes
read by one call — up to and including the first newline, capped at
`LINE_MAX - 1` characters. -/
def fgetsChunk (s : List Char) : List Char :=
  match (s.take (LINE_MAX - 1)).findIdx? (fun c => c == nl) with
  | some j => s.take (j + 1)
  | none => s.take (LINE_MAX - 1)

/-- `line[strcspn(line, "\n")] = '\0'` followed by C-string reading: the
parser sees the buffer up to the first newline or NUL byte. -/
def cLine (chunk : List Char) : List Char :=
  chunk.takeWhile (fun c => !(c == nl) && !(c == Char.ofNat 0))

/-- The payload of one decoded timing record. -/
inductive TPayload where
  | bytes (n : Nat)
  | susp (sig : List Char)
  | winsz (rows cols : Nat)
deriving DecidableEq, Repr

/-- One decoded timing record (`struct timing_closure`): event kind, delay
seconds and nanoseconds, payload. -/
structure TimingRec where
  ev : Nat
  sec : Nat
  nsec : Nat
  payload : TPayload
deriving DecidableEq, Repr

/-- The record's delay as a timespec. -/
def rDelay (r : TimingRec) : TS := ((r.sec : Int), (r.nsec : Int))

/-- The record's byte count (0 for control payloads, which never use it). -/
def rBytes (r : TimingRec) : Nat :=
  match r.payload with
  | .bytes n => n
  | _ => 0

/-- ASCII decimal digit test. -/
def isDigitB (c : Char) : Bool := decide ('0' ≤ c) && decide (c ≤ '9')

/-- Value of a digit string. -/
def digitsVal (t : List Char) : Nat := t.foldl (fun a c => a * 10 + (c.toNat - 48)) 0

/-- A decimal integer token: nonempty, all digits, no leading zero unless
the token is the single digit 0. -/
def parseDec (t : List Char) : Option Nat :=
  if !t.isEmpty && t.all isDigitB && (t.length == 1 || !(t.head? == some '0')) then
    some (digitsVal t)
  else none

/-- The nanosecond token: exactly nine digits. -/
def parseNsec (t : List Char) : Option Nat :=
  if t.length == 9 && t.all isDigitB then some (digitsVal t) else none

/-- Split a character list on a separator character (like `String.splitOn`:
adjacent separators yield empty tokens). -/
def splitOnChar (c : Char) : List Char → List (List Char)
  | [] => [[]]
  | x :: xs =>
    match splitOnChar c xs with
    | [] => [[]]
    | t :: ts => if x == c then [] :: t :: ts else (x :: t) :: ts

/-- Modelled from the spec: `parse_timing` is defined in `iolog_util.c`,
which is not part of the sources.  Per the spec's timing codec: a record is
`event_kind SP seconds.nanoseconds SP payload`, decimal integers without
leading zeros except nanoseconds which are exactly nine digits, fields
separated by single spaces, a trailing newline stripped if present,
`event_kind` in 0..5; for kinds 0..4 the payload is the decimal byte count,
for kind 5 it is either a signal name (suspend) or `rows SP cols`
(winsize); any other structure is invalid. -/
def parse_timing (line0 : List Char) : Option TimingRec :=
  let line := if line0.getLast? = some nl then line0.dropLast else line0
  match splitOnChar ' ' line with
  | evT :: tsT :: rest =>
    match parseDec evT with
    | none => none
    | some e =>
      if 5 < e then none
      else
        match splitOnChar '.' tsT with
        | [secT, nsecT] =>
          match parseDec secT, parseNsec nsecT with
          | some s, some n =>
            if e ≤ 4 then
              match rest with
              | [bT] =>
                match parseDec bT with
                | some b => some ⟨e, s, n, .bytes b⟩
                | none => none
              | _ => none
            else
              match rest with
              | [sig] => some ⟨e, s, n, .susp sig⟩
              | [rT, cT] =>
                match parseDec rT, parseDec cT with
                | some r, some c2 => some ⟨e, s, n, .winsz r c2⟩
                | _, _ => none
              | _ => none
          | _, _ => none
        | _ => none
  | _ => none

/-- Result of `read_timing_record`: a record (0), end of file (1), or a
read/parse error (-1). -/
inductive ReadRes where
  | record (r : TimingRec)
  | eof
  | err
deriving DecidableEq, Repr

/-- `read_timing_record(fp, timing)` on remaining stream content `s`:
`fgets` returns NULL with `feof` set only when no characters remain;
otherwise the chunk it read is terminated at its first newline and parsed.
Also returns the number of characters consumed from the stream. -/
def read_timing_record (s : List Char) : ReadRes × Nat :=
  if s.isEmpty then (.eof, 0)
  else
    let chunk := fgetsChunk s
    match parse_timing (cLine chunk) with
    | some r => (.record r, chunk.length)
    | none => (.err, chunk.length)

/-- The distinct exits of `iolog_restart`: success, or the `goto bad` sites —
EOF from the replay read, a parse error, a referenced stream that is not
open, a resume-point mismatch, or a missing timing file. -/
inductive RRes where
  | ok
  | eofFail
  | parseFail
  | missingStream
  | mismatch
  | noTiming
  | fuelOut
deriving DecidableEq, Repr

/-- `ftruncate` of a stream positioned (by the preceding relative `lseek`)
at offset `m`: keep the first `m` bytes, extending with NUL bytes when the
file is shorter than `m`. -/
def truncTo (l : List Char) (m : Nat) : List Char :=
  l.take m ++ List.replicate (m - l.length) (Char.ofNat 0)

/-- The replay loop of `iolog_restart`: read a timing record, add its delay
to the elapsed time, for a byte-stream record seek the stream forward by its
byte count and truncate it there (failing if the stream is not open), then
stop — successfully on an exact hit of the target, with a mismatch on
overshoot — or continue.  `rem` is the unread suffix of the timing file,
`consumed` the stream position of the reading side (`ftello`), `pos` the
per-stream write offsets.  The fuel (one per iteration) is passed in by
`iolog_restart` as one more than the timing file length, which always
suffices since every iteration consumes at least one character. -/
def restart_loop (target : TS) :
    Nat → List Char → Nat → (Nat → Nat) → Files → TS → RRes × Files × TS × Nat
  | 0, _, consumed, _, fs, el => (.fuelOut, fs, el, consumed)
  | fuel + 1, rem, consumed, pos, fs, el =>
    match read_timing_record rem with
    | (.eof, _) => (.eofFail, fs, el, consumed)
    | (.err, _) => (.parseFail, fs, el, consumed)
    | (.record r, k) =>
      let el' := sudo_timespecadd (rDelay r) el
      if r.ev < 5 then
        match fs.get r.ev with
        | none => (.missingStream, fs, el', consumed)
        | some content =>
          let p' := pos r.ev + rBytes r
          let fs' := fs.set r.ev (some (truncTo content p'))
          let pos' := fun j => if j = r.ev then p' else pos j
          if tsGeb el' target then
            if el' = target then (.ok, fs', el', consumed + k)
            else (.mismatch, fs', el', consumed + k)
          else restart_loop target fuel (rem.drop k) (consumed + k) pos' fs' el'
      else
        if tsGeb el' target then
          if el' = target then (.ok, fs, el', consumed + k)
          else (.mismatch, fs, el', consumed + k)
        else restart_loop target fuel (rem.drop k) (consumed + k) pos fs el'

/-- `iolog_restart(msg, closure)`: open the six log files of the existing
session read/write (missing ones tolerated), fail when the timing file is
absent, replay the timing file to the target instant, and on success seek
the timing descriptor to the position just past the last replayed record
and truncate the timing file there. -/
def iolog_restart (files0 : Files) (target : TS) : RRes × Files × TS :=
  match files0.get 5 with
  | none => (.noTiming, files0, (0, 0))
  | some tc =>
    match restart_loop target (tc.length + 1) tc 0 (fun _ => 0) files0 (0, 0) with
    | (.ok, fs, el, consumed) => (.ok, fs.set 5 (some (tc.take consumed)), el)
    | (res, fs, el, _) => (res, fs, el)

/-- The component-wise sum of a list of delays (the specification's
"component-wise sum of all supplied delay values"). -/
def sumTS (ds : List TS) : TS := ds.foldl (fun a d => (a.1 + d.1, a.2 + d.2)) (0, 0)

/-- The specification's normalisation: carry one second at a time while the
nanosecond component is at least 10^9 (repeated carry). -/
def normTS (t : TS) : TS := carryAux t.2.toNat t.1 t.2

/-- `chunkSeqB ls s` holds when the lists in `ls` are exactly the successive
chunks `fgets` returns on stream content `s` (a prefix of the chunk split). -/
def chunkSeqB : List (List Char) → List Char → Bool
  | [], _ => true
  | c :: ls, s => if fgetsChunk s = c then chunkSeqB ls (s.drop c.length) else false

/-- `parseSeqB ls rs` holds when the chunks `ls` parse, via the newline
stripping and `parse_timing`, to exactly the records `rs`. -/
def parseSeqB : List (List Char) → List TimingRec → Bool
  | [], [] => true
  | c :: ls, r :: rs => if parse_timing (cLine c) = some r then parseSeqB ls rs else false
  | _, _ => false

/-- Fold a list of records into the elapsed time, the way the replay loop
adds each record's delay. -/
def elFold (el : TS) (rs : List TimingRec) : TS :=
  rs.foldl (fun e r => sudo_timespecadd (rDelay r) e) el

/-- The total payload byte count of the records in `rs` whose event kind is
the stream `e`. -/
def evBytes (rs : List TimingRec) (e : Nat) : Nat :=
  ((rs.filter fun r => r.ev == e).map rBytes).sum

/-- The session files immediately after a successful `iolog_init`: timing,
stdout, stderr and ttyout created empty, stdin and ttyin absent. -/
def exInitFiles : Files := ⟨none, some [], some [], none, some [], some []⟩

/-- A closure in the post-`iolog_init` state. -/
def exInitClosure : Closure := ⟨exInitFiles, (0, 0)⟩

/-- A minimal valid ExecMessage (submituser, submithost and command supplied). -/
def exMsg : ExecMessage :=
  ⟨1000, [⟨"submituser", .str "alice"⟩, ⟨"submithost", .str "h1"⟩, ⟨"command", .str "/bin/ls"⟩]⟩

/-- A session whose timing file holds one stdout record and one stderr
record, with both streams on disk. -/
def exTwoStreamFiles : Files :=
  ⟨none, some ("abcd".toList), some ("ABCDEFGH".toList), none, none,
    some ("1 0.100000000 4\n2 0.100000000 8\n".toList)⟩

/-- The one timing line preserved when `exTwoStreamFiles` is restarted to
0.1 s. -/
def exPreservedLine : List Char := "1 0.100000000 4\n".toList

/-- The record encoded by `exPreservedLine`. -/
def exRec1 : TimingRec := ⟨1, 0, 100000000, .bytes 4⟩

/-- The session of the spec's restart scenarios: three stdout records of 4,
8 and 16 bytes with delays 0.1 s, 0.2 s and 0.3 s, stdout 28 bytes long. -/
def exScenarioFiles : Files :=
  ⟨none, some ("0123456789abcdefghijklmnopqr".toList), none, none, none,
    some ("1 0.100000000 4\n1 0.200000000 8\n1 0.300000000 16\n".toList)⟩

/-- The files of `exScenarioFiles` after a successful restart to 0.3 s:
stdout truncated after record one and zero-extended by record two, the
timing file holding the first two records. -/
def exScenarioOut : Files :=
  ⟨none, some ("0123".toList ++ List.replicate 8 (Char.ofNat 0)), none, none, none,
    some ("1 0.100000000 4\n1 0.200000000 8\n".toList)⟩

/-- A session with one 12-byte stdout stream and two stdout records (4 and
8 bytes, delays 0.1 s and 0.2 s), used for the mismatch scenario. -/
def exMismatchFiles : Files :=
  ⟨none, some ("0123456789ab".toList), none, none, none,
    some ("1 0.100000000 4\n1 0.200000000 8\n".toList)⟩

/-- What a successful `store_iobuf` guarantees: an in-range stream id; the
trace shows the payload written to the stream strictly before the single
timing record reaches the timing file; the final files are the input files
with the payload appended to the (possibly just-created) stream and the
formatted record appended to the timing file; the elapsed time is updated
only after both writes; and for a normalised delay the record's nanosecond
field is exactly nine digits. -/
def store_iobuf_post (iofd : Int) (delay : TS) (data : List Char) (c c' : Closure)
    (tr : List (Int × List Char)) : Prop :=
  0 ≤ iofd ∧ iofd < 6 ∧
  tr = [(iofd, data), (5, fmt_iobuf iofd delay data.length)] ∧
  c'.files = (c.files.set iofd (some ((c.files.get iofd).getD [] ++ data))).set 5
    (some (((c.files.set iofd (some ((c.files.get iofd).getD [] ++ data))).get 5).getD [] ++
      fmt_iobuf iofd delay data.length)) ∧
  c'.elapsed = update_elapsed_time delay c.elapsed ∧
  (0 ≤ delay.2 → delay.2 < 1000000000 → (fmt09d (toInt32 delay.2)).length = 9)

/-- Reading back the slot just written. -/
theorem Files.get_set_same (fs : Files) (i : Int) (v : Option (List Char))
    (h0 : 0 ≤ i) (h1 : i < 6) : (fs.set i v).get i = v := by
  interval_cases i <;> simp [Files.set, Files.get]

/-- Out-of-range reads yield `none`. -/
theorem Files.get_out_of_range (fs : Files) (i : Int) (h : i < 0 ∨ 5 < i) :
    fs.get i = none := by
  unfold Files.get
  split_ifs <;> first | rfl | omega

/-- Out-of-range writes have no effect. -/
theorem Files.set_out_of_range (fs : Files) (i : Int) (v : Option (List Char))
    (h : i < 0 ∨ 5 < i) : fs.set i v = fs := by
  unfold Files.set
  split_ifs <;> first | rfl | omega

/-- Writing one slot leaves every other slot unchanged. -/
theorem Files.get_set_ne (fs : Files) (i j : Int) (v : Option (List Char))
    (h : i ≠ j) : (fs.set i v).get j = fs.get j := by
  by_cases hi : 0 ≤ i ∧ i < 6
  · by_cases hj : 0 ≤ j ∧ j < 6
    · obtain ⟨hi0, hi1⟩ := hi
      obtain ⟨hj0, hj1⟩ := hj
      interval_cases i <;> interval_cases j <;>
        first
        | exact absurd rfl h
        | simp [Files.set, Files.get]
    · rw [Files.get_out_of_range _ j (by omega), Files.get_out_of_range _ j (by omega)]
  · rw [Files.set_out_of_range _ i v (by omega)]

/-- Writing the same slot twice keeps only the second write. -/
theorem Files.set_set_same (fs : Files) (i : Int) (v w : Option (List Char)) :
    (fs.set i v).set i w = fs.set i w := by
  unfold Files.set
  split_ifs <;> rfl

/-- `iolog_write` on an in-range descriptor whose file is present appends
the buffer. -/
theorem iolog_write_present (iofd : Int) (buf t : List Char) (c : Closure)
    (h0 : 0 ≤ iofd) (h1 : iofd < 6) (ht : c.files.get iofd = some t) :
    iolog_write iofd buf c =
      some { c with files := c.files.set iofd (some (t ++ buf)) } := by
  unfold iolog_write
  rw [if_neg (by omega), ht]

/-- `store_iobuf` on an out-of-range stream id fails before any write: the
(undefined-behaviour) `io_fds` read yields the absent marker, `iolog_open`
rejects the index, and the call returns -1 with the closure untouched. -/
theorem store_iobuf_out_of_range (iofd : Int) (delay : TS) (data : List Char) (c : Closure)
    (h : iofd < 0 ∨ 5 < iofd) : store_iobuf iofd delay data c = (-1, c, []) := by
  simp only [store_iobuf]
  rw [if_pos (Files.get_out_of_range c.files iofd (by omega))]
  simp only [iolog_open]
  rw [if_pos (by omega)]

/-- A truncate-at-`m` always produces a file of length exactly `m`. -/
theorem truncTo_length (l : List Char) (m : Nat) : (truncTo l m).length = m := by
  simp [truncTo]
  omega

/-- Characterisation of the carry loop on a nonnegative nanosecond value
with enough fuel. -/
theorem carryAux_eq (f : Nat) : ∀ s n : Int, 0 ≤ n → n < 1000000000 * ((f : Int) + 1) →
    carryAux f s n = (s + n / 1000000000, n % 1000000000) := by
  induction f with
  | zero =>
    intro s n h0 h1
    simp only [carryAux, Prod.mk.injEq]
    push_cast at h1
    omega
  | succ f ih =>
    intro s n h0 h1
    simp only [carryAux]
    split
    · rw [ih (s + 1) (n - 1000000000) (by omega) (by push_cast at h1 ⊢; omega)]
      simp only [Prod.mk.injEq]
      omega
    · simp only [Prod.mk.injEq]
      omega

/-- Characterisation of `update_elapsed_time` when the combined nanosecond
value is nonnegative. -/
theorem update_elapsed_time_eq (delta elapsed : TS) (h : 0 ≤ elapsed.2 + delta.2) :
    update_elapsed_time delta elapsed =
      ((elapsed.1 + delta.1) + (elapsed.2 + delta.2) / 1000000000,
        (elapsed.2 + delta.2) % 1000000000) := by
  unfold update_elapsed_time
  apply carryAux_eq _ _ _ h
  omega

/-- Characterisation of `normTS` on a nonnegative nanosecond component. -/
theorem normTS_eq (s n : Int) (h : 0 ≤ n) :
    normTS (s, n) = (s + n / 1000000000, n % 1000000000) := by
  unfold normTS
  apply carryAux_eq _ _ _ h
  omega

/-- The digit printer emits at most one character per unit of fuel. -/
theorem decNatAux_length_le (f : Nat) : ∀ n, (decNatAux f n).length ≤ f := by
  induction f with
  | zero => intro n; simp [decNatAux]
  | succ f ih =>
    intro n
    simp only [decNatAux]
    split
    · simp
    · simp only [List.length_append, List.length_cons, List.length_nil]
      have := ih (n / 10)
      omega

/-- With enough fuel, a number below `10 ^ k` prints in at most `k` digits. -/
theorem decNatAux_length_le_pow (f : Nat) : ∀ k n, 1 ≤ k → k ≤ f → n < 10 ^ k →
    (decNatAux f n).length ≤ k := by
  induction f with
  | zero => intro k n h1 h2 _; omega
  | succ f ih =>
    intro k n h1 h2 h3
    simp only [decNatAux]
    split
    · simp
      omega
    · rename_i hn
      have hk2 : 2 ≤ k := by
        by_contra hk
        have : k = 1 := by omega
        subst this
        simp at h3
        omega
      have hdiv : n / 10 < 10 ^ (k - 1) := by
        rw [Nat.div_lt_iff_lt_mul (by norm_num)]
        have : 10 ^ (k - 1) * 10 = 10 ^ k := by
          rw [← pow_succ]
          congr 1
          omega
        omega
      have := ih (k - 1) (n / 10) (by omega) (by omega) hdiv
      simp only [List.length_append, List.length_cons, List.length_nil]
      omega

/-- A natural below `10 ^ k` prints in at most `k` digits. -/
theorem decNat_length_le (k n : Nat) (h1 : 1 ≤ k) (h : n < 10 ^ k) :
    (decNat n).length ≤ k := by
  unfold decNat
  rcases le_or_lt k (n + 1) with hk | hk
  · exact decNatAux_length_le_pow (n + 1) k n h1 hk h
  · have := decNatAux_length_le (n + 1) n
    omega

/-- An integer of absolute value below `10 ^ k` prints in at most `k + 1`
characters (one for a possible sign). -/
theorem decInt_length_le (i : Int) (k : Nat) (h1 : 1 ≤ k) (h : i.natAbs < 10 ^ k) :
    (decInt i).length ≤ k + 1 := by
  unfold decInt
  split
  · simp only [List.length_cons]
    have : (-i).toNat = i.natAbs := by omega
    rw [this]
    have := decNat_length_le k i.natAbs h1 h
    omega
  · have : i.toNat = i.natAbs := by omega
    rw [this]
    have := decNat_length_le k i.natAbs h1 h
    omega

/-- Length of zero padding. -/
theorem padZeros_length (w : Nat) (s : List Char) :
    (padZeros w s).length = max w s.length := by
  simp [padZeros]
  omega

/-- The result of the `(int)` cast lies in the 32-bit range. -/
theorem toInt32_bounds (n : Int) : -2 ^ 31 ≤ toInt32 n ∧ toInt32 n < 2 ^ 31 := by
  unfold toInt32
  have h1 := Int.emod_nonneg (n + 2 ^ 31) (by norm_num : (2 ^ 32 : Int) ≠ 0)
  have h2 := Int.emod_lt_of_pos (n + 2 ^ 31) (by norm_num : (0 : Int) < 2 ^ 32)
  omega

/-- The `(int)` cast is the identity on values already in range. -/
theorem toInt32_of_small (n : Int) (h0 : -2 ^ 31 ≤ n) (h1 : n < 2 ^ 31) :
    toInt32 n = n := by
  unfold toInt32
  have : (n + 2 ^ 31) % 2 ^ 32 = n + 2 ^ 31 :=
    Int.emod_eq_of_lt (by omega) (by omega)
  omega

/-- A 32-bit value prints under `%09d` in at most 11 characters. -/
theorem fmt09d_length_le (n : Int) (h0 : -2 ^ 31 ≤ n) (h1 : n < 2 ^ 31) :
    (fmt09d n).length ≤ 11 := by
  unfold fmt09d
  split
  · simp only [List.length_cons, padZeros_length]
    have : (-n).toNat = n.natAbs := by omega
    rw [this]
    have : n.natAbs < 10 ^ 10 := by omega
    have := decNat_length_le 10 n.natAbs (by norm_num) this
    omega
  · rw [padZeros_length]
    have : n.toNat = n.natAbs := by omega
    rw [this]
    have : n.natAbs < 10 ^ 10 := by omega
    have := decNat_length_le 10 n.natAbs (by norm_num) this
    omega

/-- A normalised nanosecond value prints under `%09d` in exactly 9 digits. -/
theorem fmt09d_length_eq_nine (n : Int) (h0 : 0 ≤ n) (h1 : n < 1000000000) :
    (fmt09d (toInt32 n)).length = 9 := by
  rw [toInt32_of_small n (by omega) (by omega)]
  unfold fmt09d
  rw [if_neg (by omega), padZeros_length]
  have : n.toNat < 10 ^ 9 := by omega
  have := decNat_length_le 9 n.toNat (by norm_num) this
  omega

/-- The iobuf timing line always fits the 1024-byte buffer for C-range
inputs. -/
theorem fmt_iobuf_length_lt (iofd : Int) (delay : TS) (len : Nat)
    (hio : iofd.natAbs < 10) (hs : delay.1.natAbs < 10 ^ 19) (hl : len < 10 ^ 20) :
    (fmt_iobuf iofd delay len).length < 1024 := by
  unfold fmt_iobuf
  have b1 := decInt_length_le iofd 1 (by norm_num) (by simpa using hio)
  have b2 := decInt_length_le delay.1 19 (by norm_num) hs
  have b3 := fmt09d_length_le (toInt32 delay.2) (toInt32_bounds delay.2).1
    (toInt32_bounds delay.2).2
  have b4 := decNat_length_le 20 len (by norm_num) hl
  simp only [List.length_append, List.length_cons, List.length_nil]
  omega

/-- The winsize timing line always fits the 1024-byte buffer for C-range
inputs. -/
theorem fmt_winsize_length_lt (delay : TS) (rows cols : Int)
    (hs : delay.1.natAbs < 10 ^ 19) (hr : rows.natAbs < 10 ^ 10) (hc : cols.natAbs < 10 ^ 10) :
    (fmt_winsize delay rows cols).length < 1024 := by
  unfold fmt_winsize
  have b1 := decInt_length_le delay.1 19 (by norm_num) hs
  have b2 := fmt09d_length_le (toInt32 delay.2) (toInt32_bounds delay.2).1
    (toInt32_bounds delay.2).2
  have b3 := decInt_length_le rows 10 (by norm_num) hr
  have b4 := decInt_length_le cols 10 (by norm_num) hc
  simp only [List.length_append, List.length_cons, List.length_nil]
  have : (decInt IO_EVENT_WINSIZE).length = 1 := by decide
  omega

/-- Folding `update_elapsed_time` over delays with nonnegative nanosecond
components, starting from a normalised elapsed time, equals the
normalisation of the component-wise total. -/
theorem foldl_update_norm (ds : List TS) : ∀ e : TS, 0 ≤ e.2 → e.2 < 1000000000 →
    (∀ d ∈ ds, 0 ≤ d.2) →
    ds.foldl (fun e d => update_elapsed_time d e) e =
      normTS (e.1 + (ds.map Prod.fst).sum, e.2 + (ds.map Prod.snd).sum) := by
  induction ds with
  | nil =>
    intro e h0 h1 _
    simp only [List.foldl_nil, List.map_nil, List.sum_nil, add_zero]
    rw [normTS_eq _ _ h0]
    refine Prod.ext ?_ ?_
    · show e.1 = e.1 + e.2 / 1000000000
      omega
    · show e.2 = e.2 % 1000000000
      omega
  | cons d ds ih =>
    intro e h0 h1 hall
    have hd : 0 ≤ d.2 := hall d (List.mem_cons_self _ _)
    have hS2 : 0 ≤ (ds.map Prod.snd).sum := by
      apply List.sum_nonneg
      intro x hx
      obtain ⟨d', hd', rfl⟩ := List.mem_map.mp hx
      exact hall d' (List.mem_cons_of_mem _ hd')
    simp only [List.foldl_cons, List.map_cons, List.sum_cons]
    rw [update_elapsed_time_eq d e (add_nonneg h0 hd)]
    rw [ih _ (Int.emod_nonneg _ (by norm_num)) (Int.emod_lt_of_pos _ (by norm_num))
      (fun x hx => hall x (List.mem_cons_of_mem _ hx))]
    rw [normTS_eq _ _ (add_nonneg (Int.emod_nonneg _ (by norm_num)) hS2),
      normTS_eq _ _ (by omega)]
    simp only [Prod.mk.injEq]
    omega

/-- `sumTS` is the pair of component sums. -/
theorem sumTS_eq (ds : List TS) :
    sumTS ds = ((ds.map Prod.fst).sum, (ds.map Prod.snd).sum) := by
  unfold sumTS
  suffices h : ∀ a : TS, ds.foldl (fun a d => (a.1 + d.1, a.2 + d.2)) a =
      (a.1 + (ds.map Prod.fst).sum, a.2 + (ds.map Prod.snd).sum) by
    rw [h (0, 0)]
    simp
  induction ds with
  | nil => intro a; simp
  | cons d ds ih =>
    intro a
    simp only [List.foldl_cons, List.map_cons, List.sum_cons]
    rw [ih]
    simp only [Prod.mk.injEq]
    constructor <;> ring

/-- C7: for every sequence of delays (possibly unnormalised, with
nonnegative nanosecond components as in a wire timespec), folding
`update_elapsed_time` from a zero elapsed time yields exactly the
component-wise sum of the delays normalised by repeated carry. -/
theorem elapsed_time_normalized_sum (ds : List TS) (h : ∀ d ∈ ds, 0 ≤ d.2) :
    ds.foldl (fun e d => update_elapsed_time d e) (0, 0) = normTS (sumTS ds) := by
  rw [sumTS_eq]
  have := foldl_update_norm ds (0, 0) le_rfl (by norm_num) h
  simpa using this

/-- Witness for C7: the claim's own boundary example — applying the delay
(0, 999999999) twice yields elapsed (1, 999999998). -/
theorem elapsed_time_normalized_sum_witness :
    (∀ d ∈ [((0 : Int), (999999999 : Int)), (0, 999999999)], 0 ≤ d.2) ∧
    List.foldl (fun e d => update_elapsed_time d e) (0, 0)
        [((0 : Int), (999999999 : Int)), (0, 999999999)] =
      normTS (sumTS [((0 : Int), (999999999 : Int)), (0, 999999999)]) ∧
    List.foldl (fun e d => update_elapsed_time d e) ((0 : Int), (0 : Int))
        [((0 : Int), (999999999 : Int)), (0, 999999999)] = (1, 999999998) :=
  ⟨by decide, elapsed_time_normalized_sum _ (by decide), by decide⟩

/-- `applyInfo` on a numeric `lines` key. -/
theorem applyInfo_num_lines (d : Details) (i : Info) (hk : i.key = "lines") (v : Int)
    (hv : i.val = .num v) :
    applyInfo d i = if v ≤ 0 ∨ v > 2147483647 then d else { d with lines := v } := by
  unfold applyInfo
  rw [hk, hv]
  rw [if_neg (by decide), if_neg (by decide), if_neg (by decide), if_pos rfl]

/-- `applyInfo` on a numeric `columns` key. -/
theorem applyInfo_num_columns (d : Details) (i : Info) (hk : i.key = "columns") (v : Int)
    (hv : i.val = .num v) :
    applyInfo d i = if v ≤ 0 ∨ v > 2147483647 then d else { d with columns := v } := by
  unfold applyInfo
  rw [hk, hv]
  rw [if_pos rfl]

/-- Info messages with another key do not change `lines`. -/
theorem applyInfo_lines_of_ne (d : Details) (i : Info) (h : i.key ≠ "lines") :
    (applyInfo d i).lines = d.lines := by
  unfold applyInfo
  by_cases h1 : i.key = "columns"
  · rw [if_pos h1]
    rcases hv : i.val with v | s | l
    · dsimp only
      split_ifs <;> rfl
    · rfl
    · rfl
  rw [if_neg h1]
  by_cases h2 : i.key = "command"
  · rw [if_pos h2]
    rcases hv : i.val with v | s | l <;> rfl
  rw [if_neg h2]
  by_cases h3 : i.key = "cwd"
  · rw [if_pos h3]
    rcases hv : i.val with v | s | l <;> rfl
  rw [if_neg h3]
  rw [if_neg h]
  by_cases h5 : i.key = "runargv"
  · rw [if_pos h5]
    rcases hv : i.val with v | s | l <;> rfl
  rw [if_neg h5]
  by_cases h6 : i.key = "rungroup"
  · rw [if_pos h6]
    rcases hv : i.val with v | s | l <;> rfl
  rw [if_neg h6]
  by_cases h7 : i.key = "runuser"
  · rw [if_pos h7]
    rcases hv : i.val with v | s | l <;> rfl
  rw [if_neg h7]
  by_cases h8 : i.key = "submithost"
  · rw [if_pos h8]
    rcases hv : i.val with v | s | l <;> rfl
  rw [if_neg h8]
  by_cases h9 : i.key = "submituser"
  · rw [if_pos h9]
    rcases hv : i.val with v | s | l <;> rfl
  rw [if_neg h9]
  by_cases h10 : i.key = "ttyname"
  · rw [if_pos h10]
    rcases hv : i.val with v | s | l <;> rfl
  rw [if_neg h10]

/-- Info messages with another key do not change `columns`. -/
theorem applyInfo_columns_of_ne (d : Details) (i : Info) (h : i.key ≠ "columns") :
    (applyInfo d i).columns = d.columns := by
  unfold applyInfo
  rw [if_neg h]
  by_cases h2 : i.key = "command"
  · rw [if_pos h2]
    rcases hv : i.val with v | s | l <;> rfl
  rw [if_neg h2]
  by_cases h3 : i.key = "cwd"
  · rw [if_pos h3]
    rcases hv : i.val with v | s | l <;> rfl
  rw [if_neg h3]
  by_cases h4 : i.key = "lines"
  · rw [if_pos h4]
    rcases hv : i.val with v | s | l
    · dsimp only
      split_ifs <;> rfl
    · rfl
    · rfl
  rw [if_neg h4]
  by_cases h5 : i.key = "runargv"
  · rw [if_pos h5]
    rcases hv : i.val with v | s | l <;> rfl
  rw [if_neg h5]
  by_cases h6 : i.key = "rungroup"
  · rw [if_pos h6]
    rcases hv : i.val with v | s | l <;> rfl
  rw [if_neg h6]
  by_cases h7 : i.key = "runuser"
  · rw [if_pos h7]
    rcases hv : i.val with v | s | l <;> rfl
  rw [if_neg h7]
  by_cases h8 : i.key = "submithost"
  · rw [if_pos h8]
    rcases hv : i.val with v | s | l <;> rfl
  rw [if_neg h8]
  by_cases h9 : i.key = "submituser"
  · rw [if_pos h9]
    rcases hv : i.val with v | s | l <;> rfl
  rw [if_neg h9]
  by_cases h10 : i.key = "ttyname"
  · rw [if_pos h10]
    rcases hv : i.val with v | s | l <;> rfl
  rw [if_neg h10]

/-- Folding info messages without a `lines` key keeps `lines`. -/
theorem foldl_applyInfo_lines (l : List Info) : ∀ d : Details, (∀ i ∈ l, i.key ≠ "lines") →
    (l.foldl applyInfo d).lines = d.lines := by
  induction l with
  | nil => intro d _; rfl
  | cons x l ih =>
    intro d h
    rw [List.foldl_cons, ih _ (fun i hi => h i (List.mem_cons_of_mem _ hi)),
      applyInfo_lines_of_ne d x (h x (List.mem_cons_self _ _))]

/-- Folding info messages without a `columns` key keeps `columns`. -/
theorem foldl_applyInfo_columns (l : List Info) : ∀ d : Details, (∀ i ∈ l, i.key ≠ "columns") →
    (l.foldl applyInfo d).columns = d.columns := by
  induction l with
  | nil => intro d _; rfl
  | cons x l ih =>
    intro d h
    rw [List.foldl_cons, ih _ (fun i hi => h i (List.mem_cons_of_mem _ hi)),
      applyInfo_columns_of_ne d x (h x (List.mem_cons_self _ _))]

/-- C8: a supplied numeric `lines` (resp. `columns`) value that is zero,
negative, or above 2^31 - 1 is rejected and the default 24 (resp. 80) kept,
while a value in [1, 2^31 - 1] replaces the default (stated for a
session-open record supplying the key once). -/
theorem details_fill_lines_columns_validation :
    (∀ (st : Int) (pre post : List Info) (v : Int),
        (∀ i ∈ pre, i.key ≠ "lines") → (∀ i ∈ post, i.key ≠ "lines") →
        ((v ≤ 0 ∨ v > 2147483647 →
            (iolog_details_fill ⟨st, pre ++ ⟨"lines", .num v⟩ :: post⟩).2.lines = 24) ∧
          (1 ≤ v → v ≤ 2147483647 →
            (iolog_details_fill ⟨st, pre ++ ⟨"lines", .num v⟩ :: post⟩).2.lines = v))) ∧
    (∀ (st : Int) (pre post : List Info) (v : Int),
        (∀ i ∈ pre, i.key ≠ "columns") → (∀ i ∈ post, i.key ≠ "columns") →
        ((v ≤ 0 ∨ v > 2147483647 →
            (iolog_details_fill ⟨st, pre ++ ⟨"columns", .num v⟩ :: post⟩).2.columns = 80) ∧
          (1 ≤ v → v ≤ 2147483647 →
            (iolog_details_fill ⟨st, pre ++ ⟨"columns", .num v⟩ :: post⟩).2.columns = v))) := by
  constructor
  · intro st pre post v hpre hpost
    have key : ∀ d0 : Details,
        ((pre ++ ⟨"lines", IVal.num v⟩ :: post).foldl applyInfo d0).lines =
          if v ≤ 0 ∨ v > 2147483647 then d0.lines else v := by
      intro d0
      rw [List.foldl_append, List.foldl_cons, foldl_applyInfo_lines post _ hpost,
        applyInfo_num_lines _ _ rfl v rfl]
      split_ifs
      · exact foldl_applyInfo_lines pre d0 hpre
      · rfl
    constructor
    · intro hv
      simp only [iolog_details_fill]
      rw [key, if_pos hv]
    · intro hv1 hv2
      simp only [iolog_details_fill]
      rw [key, if_neg (by omega)]
  · intro st pre post v hpre hpost
    have key : ∀ d0 : Details,
        ((pre ++ ⟨"columns", IVal.num v⟩ :: post).foldl applyInfo d0).columns =
          if v ≤ 0 ∨ v > 2147483647 then d0.columns else v := by
      intro d0
      rw [List.foldl_append, List.foldl_cons, foldl_applyInfo_columns post _ hpost,
        applyInfo_num_columns _ _ rfl v rfl]
      split_ifs
      · exact foldl_applyInfo_columns pre d0 hpre
      · rfl
    constructor
    · intro hv
      simp only [iolog_details_fill]
      rw [key, if_pos hv]
    · intro hv1 hv2
      simp only [iolog_details_fill]
      rw [key, if_neg (by omega)]

/-- Witness for C8: lines = 0 is rejected (default 24 kept), lines = 50 is
accepted, columns = 2^31 is rejected (default 80 kept). -/
theorem details_fill_lines_columns_validation_witness :
    ((0 : Int) ≤ 0 ∨ (0 : Int) > 2147483647) ∧
    (iolog_details_fill ⟨0, [] ++ ⟨"lines", .num 0⟩ :: []⟩).2.lines = 24 ∧
    (iolog_details_fill ⟨0, [] ++ ⟨"lines", .num 50⟩ :: []⟩).2.lines = 50 ∧
    (iolog_details_fill ⟨0, [] ++ ⟨"columns", .num 2147483648⟩ :: []⟩).2.columns = 80 :=
  ⟨Or.inl le_rfl,
    (details_fill_lines_columns_validation.1 0 [] [] 0 (by simp) (by simp)).1
      (Or.inl le_rfl),
    (details_fill_lines_columns_validation.1 0 [] [] 50 (by simp) (by simp)).2
      (by norm_num) (by norm_num),
    (details_fill_lines_columns_validation.2 0 [] [] 2147483648 (by simp) (by simp)).1
      (Or.inr (by norm_num))⟩

/-- C9 (amended): the replay read reports end of file exactly when no
characters remain; a nonempty trailing incomplete line is read by `fgets`
and yields a record or a parse error, never EOF. -/
theorem read_timing_eof_iff_empty (s : List Char) :
    (read_timing_record s).1 = ReadRes.eof ↔ s = [] := by
  constructor
  · intro h
    by_contra hne
    simp only [read_timing_record] at h
    rw [if_neg (by simpa using hne)] at h
    cases hp : parse_timing (cLine (fgetsChunk s)) <;> rw [hp] at h <;> simp at h
  · rintro rfl
    rfl

/-- Counterexample for C9: the trailing incomplete line
`1 0.500000000 8` (no newline) yields a parsed record, not EOF. -/
theorem read_timing_partial_line_counterexample :
    read_timing_record ("1 0.500000000 8".toList) =
      (ReadRes.record ⟨1, 0, 500000000, TPayload.bytes 8⟩, 15) ∧
    ReadRes.record ⟨1, 0, 500000000, TPayload.bytes 8⟩ ≠ ReadRes.eof := by
  constructor
  · decide
  · decide

/-- A directory just ensured by `mkdirE` is present. -/
theorem mem_mkdirE_self (p : String) (fs : DirFS) : p ∈ (mkdirE p fs).dirs := by
  unfold mkdirE
  split
  · assumption
  · exact List.mem_cons_self _ _

/-- C4 (amended): when the leaf directory has been created by `mkdtemp` and
the subsequent directory-descriptor open fails, `create_iolog_dir` reports
failure but does not unlink the leaf: the created directory remains. -/
theorem create_iolog_dir_open_failure_leaves_leaf (root host user suffix : String) (fs : DirFS)
    (h1 : (root ++ "/" ++ host).length < PATH_MAX)
    (h2 : (root ++ "/" ++ host ++ "/" ++ user).length < PATH_MAX)
    (h3 : (root ++ "/" ++ host ++ "/" ++ user ++ "/XXXXXX").length < PATH_MAX) :
    (create_iolog_dir root host user suffix false fs).1 = none ∧
    root ++ "/" ++ host ++ "/" ++ user ++ "/" ++ suffix ∈
      (create_iolog_dir root host user suffix false fs).2.dirs := by
  simp only [create_iolog_dir]
  rw [if_neg (by omega), if_neg (by omega), if_neg (by omega)]
  exact ⟨rfl, mem_mkdirE_self _ _⟩

/-- Counterexample for C4: a concrete run where the leaf was created and
the descriptor open failed — the builder returns failure yet the leaf
directory still exists. -/
theorem create_iolog_dir_counterexample :
    (create_iolog_dir "/var/log/io" "h1" "alice" "AbCdEf" false ⟨[]⟩).1 = none ∧
    "/var/log/io/h1/alice/AbCdEf" ∈
      (create_iolog_dir "/var/log/io" "h1" "alice" "AbCdEf" false ⟨[]⟩).2.dirs := by
  decide

/-- Witness for C4's amended theorem at a concrete session. -/
theorem create_iolog_dir_open_failure_leaves_leaf_witness :
    ("/var/log/io" ++ "/" ++ "h1").length < PATH_MAX ∧
    ((create_iolog_dir "/var/log/io" "h1" "alice" "AbCdEf" false ⟨["/existing"]⟩).1 = none ∧
      "/var/log/io" ++ "/" ++ "h1" ++ "/" ++ "alice" ++ "/" ++ "AbCdEf" ∈
        (create_iolog_dir "/var/log/io" "h1" "alice" "AbCdEf" false ⟨["/existing"]⟩).2.dirs) :=
  ⟨by decide,
    create_iolog_dir_open_failure_leaves_leaf "/var/log/io" "h1" "alice" "AbCdEf"
      ⟨["/existing"]⟩ (by decide) (by decide) (by decide)⟩

/-- C10: `store_winsize` validates nothing about rows and cols — any 32-bit
values, zero and negatives included, succeed; the record carries them
verbatim, the elapsed time advances, and no byte-stream file is touched. -/
theorem store_winsize_no_validation (delay : TS) (rows cols : Int) (c : Closure) (t : List Char)
    (ht : c.files.get 5 = some t)
    (hs1 : -2 ^ 63 ≤ delay.1) (hs2 : delay.1 < 2 ^ 63)
    (hr1 : -2 ^ 31 ≤ rows) (hr2 : rows < 2 ^ 31)
    (hc1 : -2 ^ 31 ≤ cols) (hc2 : cols < 2 ^ 31) :
    store_winsize delay rows cols c =
      (0, { files := c.files.set 5 (some (t ++ fmt_winsize delay rows cols)),
            elapsed := update_elapsed_time delay c.elapsed }) ∧
    ∀ i : Int, i ≠ 5 →
      (c.files.set 5 (some (t ++ fmt_winsize delay rows cols))).get i = c.files.get i := by
  have hlen : (fmt_winsize delay rows cols).length < 1024 :=
    fmt_winsize_length_lt delay rows cols (by omega) (by omega) (by omega)
  constructor
  · simp only [store_winsize]
    rw [if_neg (by omega)]
    simp only [iolog_write]
    rw [if_neg (by decide), ht]
  · intro i hi
    exact Files.get_set_ne _ _ _ _ (fun he => hi he.symm)

/-- Witness for C10: a winsize event with rows 0 and cols -3 succeeds and
is recorded verbatim. -/
theorem store_winsize_no_validation_witness :
    exInitClosure.files.get 5 = some [] ∧
    (store_winsize (0, 0) 0 (-3) exInitClosure =
        (0, { files := exInitClosure.files.set 5 (some ([] ++ fmt_winsize (0, 0) 0 (-3))),
              elapsed := update_elapsed_time (0, 0) exInitClosure.elapsed }) ∧
      ∀ i : Int, i ≠ 5 →
        (exInitClosure.files.set 5 (some ([] ++ fmt_winsize (0, 0) 0 (-3)))).get i =
          exInitClosure.files.get i) ∧
    fmt_winsize (0, 0) 0 (-3) = "5 0.000000000 0 -3\n".toList :=
  ⟨by decide,
    store_winsize_no_validation (0, 0) 0 (-3) exInitClosure [] (by decide) (by decide)
      (by decide) (by decide) (by decide) (by decide) (by decide),
    by decide⟩

/-- C6 (amended): a stream id outside 0..5 makes `store_iobuf` fail before
writing anything, but the id 5 — the timing slot — passes the range check:
the call succeeds and writes the payload bytes into the timing file,
followed by the timing record. -/
theorem iolog_write_stream_id_range :
    (∀ (iofd : Int) (delay : TS) (data : List Char) (c : Closure),
        iofd < 0 ∨ 5 < iofd → store_iobuf iofd delay data c = (-1, c, [])) ∧
    (∀ (delay : TS) (data : List Char) (c : Closure) (t : List Char),
        c.files.get 5 = some t →
        -2 ^ 63 ≤ delay.1 → delay.1 < 2 ^ 63 → data.length < 2 ^ 64 →
        store_iobuf 5 delay data c =
          (0, { files := c.files.set 5 (some (t ++ data ++ fmt_iobuf 5 delay data.length)),
                elapsed := update_elapsed_time delay c.elapsed },
            [(5, data), (5, fmt_iobuf 5 delay data.length)])) := by
  constructor
  · exact fun iofd delay data c h => store_iobuf_out_of_range iofd delay data c h
  · intro delay data c t ht h1 h2 h3
    have hlen : (fmt_iobuf 5 delay data.length).length < 1024 :=
      fmt_iobuf_length_lt 5 delay data.length (by norm_num) (by omega) (by omega)
    have hcopen : (if c.files.get 5 = none then iolog_open 5 c else some c) = some c := by
      rw [ht]
      simp
    have hw1 : iolog_write 5 data c =
        some { c with files := c.files.set 5 (some (t ++ data)) } :=
      iolog_write_present 5 data t c (by norm_num) (by norm_num) ht
    have hw2 : iolog_write 5 (fmt_iobuf 5 delay data.length)
          { c with files := c.files.set 5 (some (t ++ data)) } =
        some { c with files := ((c.files.set 5 (some (t ++ data))).set 5 (some ((t ++ data) ++ fmt_iobuf 5 delay data.length))) } :=
      iolog_write_present 5 _ (t ++ data) _ (by norm_num) (by norm_num)
        (Files.get_set_same c.files 5 _ (by norm_num) (by norm_num))
    simp only [store_iobuf, hcopen, hw1, hw2]
    rw [if_neg (by omega)]
    simp only [Files.set_set_same, List.append_assoc]

/-- Counterexample for C6: with stream id 5 (the timing slot) the call
succeeds and the payload bytes land in the timing file. -/
theorem store_iobuf_timing_slot_counterexample :
    (store_iobuf 5 (0, 0) ("ab".toList) exInitClosure).1 = 0 ∧
    (store_iobuf 5 (0, 0) ("ab".toList) exInitClosure).2.1.files.get 5 =
      some ("ab5 0.000000000 2\n".toList) := by
  constructor
  · decide
  · decide

/-- C2: a successful `store_iobuf` writes the payload to the named stream
first, then appends exactly one formatted timing record to the timing file,
and only then adds the delay to the elapsed time; for a normalised delay
the record's nanosecond field is zero-padded to nine digits. -/
theorem store_iobuf_order_format (iofd : Int) (delay : TS) (data : List Char) (c : Closure)
    (c' : Closure) (tr : List (Int × List Char))
    (h : store_iobuf iofd delay data c = (0, c', tr)) :
    store_iobuf_post iofd delay data c c' tr := by
  by_cases hrange : iofd < 0 ∨ 5 < iofd
  · rw [store_iobuf_out_of_range iofd delay data c hrange] at h
    exact absurd (congrArg (fun p => p.1) h) (by norm_num)
  have h0 : 0 ≤ iofd := by omega
  have h6 : iofd < 6 := by omega
  by_cases hlen : (fmt_iobuf iofd delay data.length).length ≥ 1024
  · exfalso
    rcases hs0 : c.files.get iofd with _ | s0
    · have hcopen : (if c.files.get iofd = none then iolog_open iofd c else some c) =
          some { c with files := c.files.set iofd (some []) } := by
        rw [hs0, if_pos rfl]
        simp only [iolog_open]
        rw [if_neg (by omega), hs0]
      have hcomp : store_iobuf iofd delay data c =
          (-1, { c with files := c.files.set iofd (some []) }, []) := by
        simp only [store_iobuf, hcopen]
        rw [if_pos hlen]
      rw [hcomp] at h
      exact absurd (congrArg (fun p => p.1) h) (by norm_num)
    · have hcopen : (if c.files.get iofd = none then iolog_open iofd c else some c) =
          some c := by
        rw [hs0]
        simp
      have hcomp : store_iobuf iofd delay data c = (-1, c, []) := by
        simp only [store_iobuf, hcopen]
        rw [if_pos hlen]
      rw [hcomp] at h
      exact absurd (congrArg (fun p => p.1) h) (by norm_num)
  rcases hs0 : c.files.get iofd with _ | s0
  · have hcopen : (if c.files.get iofd = none then iolog_open iofd c else some c) =
        some { c with files := c.files.set iofd (some []) } := by
      rw [hs0, if_pos rfl]
      simp only [iolog_open]
      rw [if_neg (by omega), hs0]
    have hw1 : iolog_write iofd data { c with files := c.files.set iofd (some []) } =
        some { c with files := ((c.files.set iofd (some [])).set iofd (some ([] ++ data))) } :=
      iolog_write_present iofd data [] _ h0 h6
        (Files.get_set_same c.files iofd (some []) h0 h6)
    rcases ht2 : ((c.files.set iofd (some [])).set iofd (some ([] ++ data))).get 5 with _ | t2
    · exfalso
      have hwfail : iolog_write 5 (fmt_iobuf iofd delay data.length)
          { c with files := ((c.files.set iofd (some [])).set iofd (some ([] ++ data))) } =
          none := by
        unfold iolog_write
        rw [if_neg (by decide), ht2]
      have hcomp : store_iobuf iofd delay data c =
          (-1, { c with files := ((c.files.set iofd (some [])).set iofd (some ([] ++ data))) },
            [(iofd, data)]) := by
        simp only [store_iobuf, hcopen, hw1, hwfail]
        rw [if_neg hlen]
      rw [hcomp] at h
      exact absurd (congrArg (fun p => p.1) h) (by norm_num)
    · have hw2 : iolog_write 5 (fmt_iobuf iofd delay data.length)
          { c with files := ((c.files.set iofd (some [])).set iofd (some ([] ++ data))) } =
          some { c with files := (((c.files.set iofd (some [])).set iofd
            (some ([] ++ data))).set 5 (some (t2 ++ fmt_iobuf iofd delay data.length))) } :=
        iolog_write_present 5 _ t2 _ (by norm_num) (by norm_num) ht2
      have hcomp : store_iobuf iofd delay data c =
          (0, { files := (((c.files.set iofd (some [])).set iofd
                  (some ([] ++ data))).set 5 (some (t2 ++ fmt_iobuf iofd delay data.length))),
                elapsed := update_elapsed_time delay c.elapsed },
            [(iofd, data), (5, fmt_iobuf iofd delay data.length)]) := by
        simp only [store_iobuf, hcopen, hw1, hw2]
        rw [if_neg hlen]
      rw [hcomp] at h
      simp only [Prod.mk.injEq, eq_self_iff_true, true_and] at h
      obtain ⟨hC, hT⟩ := h
      rw [Files.set_set_same] at ht2
      simp only [List.nil_append] at ht2
      refine ⟨h0, h6, hT.symm, ?_, ?_, ?_⟩
      · rw [← hC, hs0]
        simp only [Files.set_set_same, Option.getD_none, Option.getD_some, List.nil_append, ht2]
      · rw [← hC]
      · exact fun hn1 hn2 => fmt09d_length_eq_nine delay.2 hn1 hn2
  · have hcopen : (if c.files.get iofd = none then iolog_open iofd c else some c) =
        some c := by
      rw [hs0]
      simp
    have hw1 : iolog_write iofd data c =
        some { c with files := c.files.set iofd (some (s0 ++ data)) } :=
      iolog_write_present iofd data s0 c h0 h6 hs0
    rcases ht2 : (c.files.set iofd (some (s0 ++ data))).get 5 with _ | t2
    · exfalso
      have hwfail : iolog_write 5 (fmt_iobuf iofd delay data.length)
          { c with files := c.files.set iofd (some (s0 ++ data)) } = none := by
        unfold iolog_write
        rw [if_neg (by decide), ht2]
      have hcomp : store_iobuf iofd delay data c =
          (-1, { c with files := c.files.set iofd (some (s0 ++ data)) }, [(iofd, data)]) := by
        simp only [store_iobuf, hcopen, hw1, hwfail]
        rw [if_neg hlen]
      rw [hcomp] at h
      exact absurd (congrArg (fun p => p.1) h) (by norm_num)
    · have hw2 : iolog_write 5 (fmt_iobuf iofd delay data.length)
          { c with files := c.files.set iofd (some (s0 ++ data)) } =
          some { c with files := ((c.files.set iofd (some (s0 ++ data))).set 5
            (some (t2 ++ fmt_iobuf iofd delay data.length))) } :=
        iolog_write_present 5 _ t2 _ (by norm_num) (by norm_num) ht2
      have hcomp : store_iobuf iofd delay data c =
          (0, { files := ((c.files.set iofd (some (s0 ++ data))).set 5
                  (some (t2 ++ fmt_iobuf iofd delay data.length))),
                elapsed := update_elapsed_time delay c.elapsed },
            [(iofd, data), (5, fmt_iobuf iofd delay data.length)]) := by
        simp only [store_iobuf, hcopen, hw1, hw2]
        rw [if_neg hlen]
      rw [hcomp] at h
      simp only [Prod.mk.injEq, eq_self_iff_true, true_and] at h
      obtain ⟨hC, hT⟩ := h
      refine ⟨h0, h6, hT.symm, ?_, ?_, ?_⟩
      · rw [← hC, hs0]
        simp only [Option.getD_some, ht2]
      · rw [← hC]
      · exact fun hn1 hn2 => fmt09d_length_eq_nine delay.2 hn1 hn2

/-- Witness for C2: the claim's example — stream 1, delay (0, 500000000),
8 bytes — leaves the timing file holding `1 0.500000000 8` and a newline. -/
theorem store_iobuf_order_format_witness :
    store_iobuf 1 (0, 500000000) ("total 0\n".toList) exInitClosure =
      (0, ⟨⟨none, some ("total 0\n".toList), some [], none, some [],
          some ("1 0.500000000 8\n".toList)⟩, (0, 500000000)⟩,
        [(1, "total 0\n".toList), (5, "1 0.500000000 8\n".toList)]) ∧
    store_iobuf_post 1 (0, 500000000) ("total 0\n".toList) exInitClosure
      ⟨⟨none, some ("total 0\n".toList), some [], none, some [],
        some ("1 0.500000000 8\n".toList)⟩, (0, 500000000)⟩
      [(1, "total 0\n".toList), (5, "1 0.500000000 8\n".toList)] :=
  ⟨by decide,
    store_iobuf_order_format 1 (0, 500000000) ("total 0\n".toList) exInitClosure
      ⟨⟨none, some ("total 0\n".toList), some [], none, some [],
        some ("1 0.500000000 8\n".toList)⟩, (0, 500000000)⟩
      [(1, "total 0\n".toList), (5, "1 0.500000000 8\n".toList)] (by decide)⟩

/-- C5 (amended): at session open `iolog_init` eagerly creates the timing,
stdout, stderr and ttyout files (empty), leaving stdin and ttyin absent;
an absent stream such as stdin is then created lazily by the first
`store_iobuf` that writes to it. -/
theorem iolog_init_eager_and_lazy_streams :
    (∀ (msg : ExecMessage) (root suffix : String) (openOk : Bool) (fs : DirFS)
        (out : DirFS × String × List Char × Closure),
        iolog_init msg root suffix openOk fs = some out →
        out.2.2.2.files = ⟨none, some [], some [], none, some [], some []⟩ ∧
        out.2.2.2.elapsed = (0, 0)) ∧
    (∀ (delay : TS) (data : List Char) (c : Closure) (t : List Char),
        c.files.get 0 = none → c.files.get 5 = some t →
        -2 ^ 63 ≤ delay.1 → delay.1 < 2 ^ 63 → data.length < 2 ^ 64 →
        (store_iobuf 0 delay data c).1 = 0 ∧
        (store_iobuf 0 delay data c).2.1.files.get 0 = some data) := by
  constructor
  · intro msg root suffix openOk fs out h
    simp only [iolog_init] at h
    split at h
    · exact Option.noConfusion h
    · rename_i d heq
      split at h
      · exact Option.noConfusion h
      · rename_i leaf fs1 heq2
        have h' : some (fs1, leaf, iolog_details_write d,
            (⟨⟨none, some [], some [], none, some [], some []⟩, (0, 0)⟩ : Closure)) =
            some out := h
        injection h' with h''
        subst h''
        exact ⟨rfl, rfl⟩
  · intro delay data c t hs0 ht hd1 hd2 hd3
    have hlen : ¬((fmt_iobuf 0 delay data.length).length ≥ 1024) := by
      have := fmt_iobuf_length_lt 0 delay data.length (by norm_num) (by omega) (by omega)
      omega
    have hcopen : (if c.files.get 0 = none then iolog_open 0 c else some c) =
        some { c with files := c.files.set 0 (some []) } := by
      rw [hs0, if_pos rfl]
      simp only [iolog_open]
      rw [if_neg (by decide), hs0]
    have hw1 : iolog_write 0 data { c with files := c.files.set 0 (some []) } =
        some { c with files := ((c.files.set 0 (some [])).set 0 (some ([] ++ data))) } :=
      iolog_write_present 0 data [] _ (by norm_num) (by norm_num)
        (Files.get_set_same c.files 0 (some []) (by norm_num) (by norm_num))
    have ht2 : ((c.files.set 0 (some [])).set 0 (some ([] ++ data))).get 5 = some t := by
      rw [Files.get_set_ne _ _ _ _ (by norm_num), Files.get_set_ne _ _ _ _ (by norm_num), ht]
    have hw2 : iolog_write 5 (fmt_iobuf 0 delay data.length)
          { c with files := ((c.files.set 0 (some [])).set 0 (some ([] ++ data))) } =
        some { c with files := (((c.files.set 0 (some [])).set 0 (some ([] ++ data))).set 5
          (some (t ++ fmt_iobuf 0 delay data.length))) } :=
      iolog_write_present 5 _ t _ (by norm_num) (by norm_num) ht2
    have hcomp : store_iobuf 0 delay data c =
        (0, { files := (((c.files.set 0 (some [])).set 0 (some ([] ++ data))).set 5
                (some (t ++ fmt_iobuf 0 delay data.length))),
              elapsed := update_elapsed_time delay c.elapsed },
          [(0, data), (5, fmt_iobuf 0 delay data.length)]) := by
      simp only [store_iobuf, hcopen, hw1, hw2]
      rw [if_neg hlen]
    rw [hcomp]
    refine ⟨rfl, ?_⟩
    rw [Files.get_set_ne _ _ _ _ (by norm_num), Files.set_set_same,
      Files.get_set_same _ _ _ (by norm_num) (by norm_num)]
    simp

/-- Counterexample for C5: after a successful session open — before any
write — the stdout file already exists (created empty by `iolog_init`). -/
theorem iolog_init_stdout_exists_counterexample :
    (iolog_init exMsg "/var/log/io" "AbCdEf" true ⟨[]⟩).isSome = true ∧
    (iolog_init exMsg "/var/log/io" "AbCdEf" true ⟨[]⟩).map
      (fun out => out.2.2.2.files.get 1) = some (some []) := by
  constructor
  · decide
  · decide

/-- Witness for C5's amended theorem: a concrete session open, and a first
write to the absent stdin stream creating its file. -/
theorem iolog_init_eager_and_lazy_streams_witness :
    iolog_init exMsg "/var/log/io" "AbCdEf" true ⟨[]⟩ =
      some (⟨["/var/log/io/h1/alice/AbCdEf", "/var/log/io/h1/alice", "/var/log/io/h1",
          "/var/log/io"]⟩, "/var/log/io/h1/alice/AbCdEf",
        "1000:alice:root::unknown:24:80\nunknown\n/bin/ls\n".toList,
        ⟨⟨none, some [], some [], none, some [], some []⟩, (0, 0)⟩) ∧
    ((⟨["/var/log/io/h1/alice/AbCdEf", "/var/log/io/h1/alice", "/var/log/io/h1",
        "/var/log/io"]⟩, "/var/log/io/h1/alice/AbCdEf",
      "1000:alice:root::unknown:24:80\nunknown\n/bin/ls\n".toList,
      (⟨⟨none, some [], some [], none, some [], some []⟩, (0, 0)⟩ : Closure)) :
        DirFS × String × List Char × Closure).2.2.2.files =
      ⟨none, some [], some [], none, some [], some []⟩ ∧
    ((store_iobuf 0 (0, 0) ("x".toList) exInitClosure).1 = 0 ∧
      (store_iobuf 0 (0, 0) ("x".toList) exInitClosure).2.1.files.get 0 =
        some ("x".toList)) :=
  ⟨by decide,
    ((iolog_init_eager_and_lazy_streams.1 exMsg "/var/log/io" "AbCdEf" true ⟨[]⟩ _
      (by decide)).1 : _),
    iolog_init_eager_and_lazy_streams.2 (0, 0) ("x".toList) exInitClosure [] (by decide)
      (by decide) (by decide) (by decide) (by decide)⟩

/-- `fgetsChunk` is always a `take`-prefix of the stream. -/
theorem fgetsChunk_eq_take (s : List Char) : ∃ m, fgetsChunk s = s.take m := by
  unfold fgetsChunk
  split
  · exact ⟨_, rfl⟩
  · exact ⟨LINE_MAX - 1, rfl⟩

/-- `fgets` reads at least one character from a nonempty stream. -/
theorem fgetsChunk_ne_nil (s : List Char) (h : s ≠ []) : fgetsChunk s ≠ [] := by
  unfold fgetsChunk
  split
  · simp [h]
  · simp [h, LINE_MAX]

/-- A take-prefix followed by the drop of its own length restores the list. -/
theorem take_append_drop_len (l : List Char) (m : Nat) :
    l.take m ++ l.drop ((l.take m).length) = l := by
  rw [List.length_take]
  rcases le_total m l.length with h | h
  · rw [Nat.min_eq_left h, List.take_append_drop]
  · rw [Nat.min_eq_right h, List.drop_length, List.append_nil, List.take_of_length_le h]

/-- The chunk read by `fgets` plus the remaining stream reassemble the
stream. -/
theorem fgetsChunk_append_drop (s : List Char) :
    fgetsChunk s ++ s.drop (fgetsChunk s).length = s := by
  obtain ⟨m, hm⟩ := fgetsChunk_eq_take s
  rw [hm]
  exact take_append_drop_len s m

/-- Witness for C6's amended theorem: id 7 fails with no writes; id 5
succeeds, appending payload then record to the timing file. -/
theorem iolog_write_stream_id_range_witness :
    ((7 : Int) < 0 ∨ (5 : Int) < 7) ∧
    store_iobuf 7 (0, 0) [] exInitClosure = (-1, exInitClosure, []) ∧
    exInitClosure.files.get 5 = some [] ∧
    store_iobuf 5 (0, 1) ("x".toList) exInitClosure =
      (0, { files := exInitClosure.files.set 5
              (some ([] ++ "x".toList ++ fmt_iobuf 5 (0, 1) ("x".toList).length)),
            elapsed := update_elapsed_time (0, 1) exInitClosure.elapsed },
        [(5, "x".toList), (5, fmt_iobuf 5 (0, 1) ("x".toList).length)]) :=
  ⟨Or.inr (by norm_num),
    iolog_write_stream_id_range.1 7 (0, 0) [] exInitClosure (Or.inr (by norm_num)),
    by decide,
    iolog_write_stream_id_range.2 (0, 1) ("x".toList) exInitClosure [] (by decide)
      (by decide) (by decide) (by decide)⟩

/-- The empty line never parses as a timing record. -/
theorem parse_timing_cLine_nil : parse_timing (cLine []) = none := by decide

/-- Inversion of a successful `read_timing_record`: the stream was
nonempty, the consumed count is the chunk length, and the chunk parses. -/
theorem read_timing_record_record {s : List Char} {r : TimingRec} {k : Nat}
    (h : read_timing_record s = (.record r, k)) :
    s ≠ [] ∧ k = (fgetsChunk s).length ∧ parse_timing (cLine (fgetsChunk s)) = some r := by
  by_cases hs : s = []
  · subst hs
    simp [read_timing_record] at h
  · have hne : ¬s.isEmpty = true := by simpa using hs
    simp only [read_timing_record] at h
    rw [if_neg hne] at h
    rcases hp : parse_timing (cLine (fgetsChunk s)) with _ | r'
    · rw [hp] at h
      simp at h
    · rw [hp] at h
      simp only [Prod.mk.injEq, ReadRes.record.injEq] at h
      obtain ⟨hr, hk⟩ := h
      subst hr
      exact ⟨hs, hk.symm, rfl⟩

/-- Inversion of `chunkSeqB` on a cons. -/
theorem chunkSeqB_cons {c : List Char} {ls : List (List Char)} {s : List Char}
    (h : chunkSeqB (c :: ls) s = true) :
    fgetsChunk s = c ∧ chunkSeqB ls (s.drop c.length) = true := by
  simp only [chunkSeqB] at h
  split at h
  · exact ⟨‹_›, h⟩
  · exact Bool.noConfusion h

/-- `parseSeqB` with no chunks forces no records. -/
theorem parseSeqB_nil_inv {rs : List TimingRec} (h : parseSeqB [] rs = true) : rs = [] := by
  cases rs with
  | nil => rfl
  | cons r rs => exact Bool.noConfusion (show false = true from h)

/-- Inversion of `parseSeqB` on a cons. -/
theorem parseSeqB_cons_inv {c : List Char} {ls : List (List Char)} {rs : List TimingRec}
    (h : parseSeqB (c :: ls) rs = true) :
    ∃ r₀ rs', rs = r₀ :: rs' ∧ parse_timing (cLine c) = some r₀ ∧ parseSeqB ls rs' = true := by
  cases rs with
  | nil => exact Bool.noConfusion (show false = true from h)
  | cons r₀ rs' =>
    simp only [parseSeqB] at h
    split at h
    · exact ⟨r₀, rs', rfl, ‹_›, h⟩
    · exact Bool.noConfusion h

/-- `evBytes` on a cons counts the head when its event matches. -/
theorem evBytes_cons (r : TimingRec) (rs : List TimingRec) (e : Nat) :
    evBytes (r :: rs) e = (if r.ev = e then rBytes r else 0) + evBytes rs e := by
  simp only [evBytes, List.filter_cons]
  split_ifs with h1 h2 h3
  · simp
  · simp_all
  · simp_all
  · simp

/-- Records none of which hit stream `e` contribute no bytes. -/
theorem evBytes_of_not_mem (rs : List TimingRec) (e : Nat)
    (h : (rs.any fun r => r.ev == e) = false) : evBytes rs e = 0 := by
  induction rs with
  | nil => rfl
  | cons r rs ih =>
    simp only [List.any_cons, Bool.or_eq_false_iff] at h
    rw [evBytes_cons, if_neg (by simpa using h.1), ih h.2]

/-- The replay loop on a successful exit: the consumed part of the timing
stream splits into `fgets` chunks that all parse to records; the final read
position sits just past them; the elapsed time lands exactly on the target;
the timing slot is untouched; every stream hit by one of the records ends
with length equal to its starting offset plus its records' byte counts, and
every other slot is untouched. -/
theorem restart_loop_ok_spec (target : TS) :
    ∀ (fuel : Nat) (rem : List Char) (consumed : Nat) (pos : Nat → Nat) (fs : Files) (el : TS)
      (fs' : Files) (el' : TS) (c' : Nat),
      rem.length < fuel →
      restart_loop target fuel rem consumed pos fs el = (.ok, fs', el', c') →
      ∃ (ls : List (List Char)) (rs : List TimingRec) (rest : List Char),
        chunkSeqB ls rem = true ∧
        parseSeqB ls rs = true ∧
        rem = ls.flatten ++ rest ∧
        c' = consumed + ls.flatten.length ∧
        el' = target ∧
        fs'.get 5 = fs.get 5 ∧
        (∀ e : Nat, e < 5 →
          ((rs.any fun r => r.ev == e) = true →
            (fs'.get (e : Int)).map List.length = some (pos e + evBytes rs e)) ∧
          ((rs.any fun r => r.ev == e) = false → fs'.get (e : Int) = fs.get (e : Int))) := by
  intro fuel
  induction fuel with
  | zero =>
    intro rem consumed pos fs el fs' el' c' hf _
    omega
  | succ fuel ih =>
    intro rem consumed pos fs el fs' el' c' hf h
    simp only [restart_loop] at h
    split at h
    · simp at h
    · simp at h
    · rename_i r k heq
      obtain ⟨hne, hk, hparse⟩ := read_timing_record_record heq
      have hkpos : 1 ≤ k := by
        rw [hk]
        exact List.length_pos.mpr (fgetsChunk_ne_nil rem hne)
      have hlen1 : 1 ≤ rem.length := List.length_pos.mpr hne
      split at h
      · rename_i hev
        split at h
        · simp at h
        · rename_i content hcont
          split at h
          · rename_i hgeb
            split at h
            · rename_i heqt
              simp only [Prod.mk.injEq, eq_self_iff_true, true_and] at h
              obtain ⟨hfs, hel, hc⟩ := h
              refine ⟨[fgetsChunk rem], [r], rem.drop (fgetsChunk rem).length,
                ?_, ?_, ?_, ?_, ?_, ?_, ?_⟩
              · simp [chunkSeqB]
              · simp [parseSeqB, hparse]
              · rw [show List.flatten [fgetsChunk rem] = fgetsChunk rem from by simp]
                exact (fgetsChunk_append_drop rem).symm
              · rw [← hc, hk, show List.flatten [fgetsChunk rem] = fgetsChunk rem from by simp]
              · rw [← hel]
                exact heqt
              · rw [← hfs]
                exact Files.get_set_ne _ _ _ _ (by omega)
              · intro e he
                constructor
                · intro hany
                  have her : r.ev = e := by simpa using hany
                  have hcast : ((r.ev : Int)) = (e : Int) := by omega
                  rw [← hfs, hcast, Files.get_set_same _ _ _ (by omega) (by omega)]
                  simp only [Option.map_some', truncTo_length, Option.some.injEq]
                  rw [evBytes_cons, if_pos her, evBytes_of_not_mem [] e rfl, her]
                  omega
                · intro hany
                  have her : ¬(r.ev = e) := by simpa using hany
                  rw [← hfs]
                  exact Files.get_set_ne _ _ _ _ (by omega)
            · simp at h
          · rename_i hgeb
            obtain ⟨ls', rs', rest', hch', hps', hsp', hc', hel', h5', hst'⟩ :=
              ih (rem.drop k) (consumed + k) _ _ _ fs' el' c'
                (by rw [List.length_drop]; omega) h
            rw [hk] at hch'
            refine ⟨fgetsChunk rem :: ls', r :: rs', rest', ?_, ?_, ?_, ?_, hel', ?_, ?_⟩
            · rw [show chunkSeqB (fgetsChunk rem :: ls') rem =
                  chunkSeqB ls' (rem.drop (fgetsChunk rem).length) from by simp [chunkSeqB]]
              exact hch'
            · simp only [parseSeqB]
              rw [if_pos hparse]
              exact hps'
            · rw [List.flatten_cons, List.append_assoc, ← hsp', hk]
              exact (fgetsChunk_append_drop rem).symm
            · rw [hc', List.flatten_cons, List.length_append, ← hk]
              omega
            · rw [h5']
              exact Files.get_set_ne _ _ _ _ (by omega)
            · intro e he
              have hst := hst' e he
              by_cases her : r.ev = e
              · constructor
                · intro _
                  rcases hany' : (rs'.any fun x => x.ev == e) with _ | _
                  · have hfse := hst.2 hany'
                    have hcast : ((r.ev : Int)) = (e : Int) := by omega
                    rw [hfse, hcast, Files.get_set_same _ _ _ (by omega) (by omega)]
                    simp only [Option.map_some', truncTo_length, Option.some.injEq]
                    rw [evBytes_cons, if_pos her, evBytes_of_not_mem rs' e hany', her]
                    omega
                  · rw [hst.1 hany']
                    congr 1
                    show (if e = r.ev then pos r.ev + rBytes r else pos e) + evBytes rs' e =
                      pos e + evBytes (r :: rs') e
                    rw [if_pos her.symm, her, evBytes_cons, if_pos her]
                    omega
                · intro hany
                  simp only [List.any_cons, Bool.or_eq_false_iff] at hany
                  exact absurd her (by simpa using hany.1)
              · have hanyeq : ((r :: rs').any fun x => x.ev == e) =
                    (rs'.any fun x => x.ev == e) := by
                  simp [List.any_cons, her]
                constructor
                · intro hany
                  rw [hanyeq] at hany
                  rw [hst.1 hany]
                  congr 1
                  show (if e = r.ev then pos r.ev + rBytes r else pos e) + evBytes rs' e =
                    pos e + evBytes (r :: rs') e
                  rw [if_neg (fun hh => her hh.symm), evBytes_cons, if_neg her]
                  omega
                · intro hany
                  rw [hanyeq] at hany
                  rw [hst.2 hany]
                  exact Files.get_set_ne _ _ _ _ (by omega)
      · rename_i hev
        split at h
        · rename_i hgeb
          split at h
          · rename_i heqt
            simp only [Prod.mk.injEq, eq_self_iff_true, true_and] at h
            obtain ⟨hfs, hel, hc⟩ := h
            refine ⟨[fgetsChunk rem], [r], rem.drop (fgetsChunk rem).length,
              ?_, ?_, ?_, ?_, ?_, ?_, ?_⟩
            · simp [chunkSeqB]
            · simp [parseSeqB, hparse]
            · rw [show List.flatten [fgetsChunk rem] = fgetsChunk rem from by simp]
              exact (fgetsChunk_append_drop rem).symm
            · rw [← hc, hk, show List.flatten [fgetsChunk rem] = fgetsChunk rem from by simp]
            · rw [← hel]
              exact heqt
            · rw [← hfs]
            · intro e he
              constructor
              · intro hany
                have her : r.ev = e := by simpa using hany
                omega
              · intro _
                rw [← hfs]
          · simp at h
        · rename_i hgeb
          obtain ⟨ls', rs', rest', hch', hps', hsp', hc', hel', h5', hst'⟩ :=
            ih (rem.drop k) (consumed + k) _ _ _ fs' el' c'
              (by rw [List.length_drop]; omega) h
          rw [hk] at hch'
          refine ⟨fgetsChunk rem :: ls', r :: rs', rest', ?_, ?_, ?_, ?_, hel', h5', ?_⟩
          · rw [show chunkSeqB (fgetsChunk rem :: ls') rem =
                chunkSeqB ls' (rem.drop (fgetsChunk rem).length) from by simp [chunkSeqB]]
            exact hch'
          · simp only [parseSeqB]
            rw [if_pos hparse]
            exact hps'
          · rw [List.flatten_cons, List.append_assoc, ← hsp', hk]
            exact (fgetsChunk_append_drop rem).symm
          · rw [hc', List.flatten_cons, List.length_append, ← hk]
            omega
          · intro e he
            have hst := hst' e he
            have her : ¬(r.ev = e) := by omega
            have hanyeq : ((r :: rs').any fun x => x.ev == e) =
                (rs'.any fun x => x.ev == e) := by
              simp [List.any_cons, her]
            constructor
            · intro hany
              rw [hanyeq] at hany
              rw [hst.1 hany, evBytes_cons, if_neg her]
              simp
            · intro hany
              rw [hanyeq] at hany
              exact hst.2 hany

/-- C1 (amended): a successful `iolog_restart` leaves the elapsed time
exactly at the target; the timing file holds exactly the consumed prefix of
`fgets` chunks, each parsing to a preserved record; every stream referred
to by a preserved record ends with length equal to the total payload bytes
of its preserved records (any excess discarded, any shortfall zero-filled);
streams referred to by no preserved record keep their previous state. -/
theorem restart_ok_reconciliation (files0 : Files) (target : TS) (fs' : Files) (el : TS)
    (h : iolog_restart files0 target = (.ok, fs', el)) :
    el = target ∧
    ∃ (tc : List Char) (ls : List (List Char)) (rs : List TimingRec) (rest : List Char),
      files0.get 5 = some tc ∧
      chunkSeqB ls tc = true ∧
      parseSeqB ls rs = true ∧
      tc = ls.flatten ++ rest ∧
      fs'.get 5 = some ls.flatten ∧
      ∀ e : Nat, e < 5 →
        ((rs.any fun r => r.ev == e) = true →
          (fs'.get (e : Int)).map List.length = some (evBytes rs e)) ∧
        ((rs.any fun r => r.ev == e) = false →
          fs'.get (e : Int) = files0.get (e : Int)) := by
  simp only [iolog_restart] at h
  split at h
  · simp at h
  · rename_i tc htc
    split at h
    · rename_i fsL elL consumed heqloop
      simp only [Prod.mk.injEq, eq_self_iff_true, true_and] at h
      obtain ⟨hfs, hel⟩ := h
      obtain ⟨ls, rs, rest, hch, hps, hsp, hc, helL, h5, hst⟩ :=
        restart_loop_ok_spec target (tc.length + 1) tc 0 (fun _ => 0) files0 (0, 0)
          fsL elL consumed (by omega) heqloop
      constructor
      · rw [← hel, helL]
      · refine ⟨tc, ls, rs, rest, htc, hch, hps, hsp, ?_, ?_⟩
        · rw [← hfs, Files.get_set_same _ _ _ (by norm_num) (by norm_num), hc]
          rw [show (0 : Nat) + ls.flatten.length = ls.flatten.length from by omega]
          rw [hsp, List.take_left]
        · intro e he
          have hs := hst e he
          constructor
          · intro hany
            have hmain := hs.1 hany
            rw [← hfs, Files.get_set_ne _ _ _ _ (by omega)]
            simpa using hmain
          · intro hany
            have hmain := hs.2 hany
            rw [← hfs, Files.get_set_ne _ _ _ _ (by omega)]
            exact hmain
    · rename_i res fsx elx cx hnotok heqloop
      have hres : res = RRes.ok := congrArg (fun p => p.1) h
      exact absurd hres hnotok

/-- Counterexample for C1: a session whose timing file holds one stdout
record and one stderr record, restarted to the instant after the first
record.  The restart succeeds, the preserved timing file refers only to
stream 1, yet stream 2 keeps its 8 bytes — its length does not equal the
(zero) payload total of preserved records referring to it. -/
theorem restart_reconciliation_counterexample :
    (iolog_restart exTwoStreamFiles (0, 100000000)).1 = RRes.ok ∧
    (iolog_restart exTwoStreamFiles (0, 100000000)).2.1.get 5 = some exPreservedLine ∧
    parseSeqB [exPreservedLine] [exRec1] = true ∧
    ((iolog_restart exTwoStreamFiles (0, 100000000)).2.1.get 2).map List.length = some 8 ∧
    evBytes [exRec1] 2 = 0 := by
  decide

/-- Witness for C1's amended theorem: the spec's restart scenario (three
stdout records of 4, 8 and 16 bytes, target 0.3 s) resolved concretely. -/
theorem restart_ok_reconciliation_witness :
    iolog_restart exScenarioFiles (0, 300000000) =
      (RRes.ok, exScenarioOut, ((0 : Int), (300000000 : Int))) ∧
    (((0 : Int), (300000000 : Int)) = ((0, 300000000) : TS) ∧
      ∃ (tc : List Char) (ls : List (List Char)) (rs : List TimingRec) (rest : List Char),
        exScenarioFiles.get 5 = some tc ∧
        chunkSeqB ls tc = true ∧
        parseSeqB ls rs = true ∧
        tc = ls.flatten ++ rest ∧
        exScenarioOut.get 5 = some ls.flatten ∧
        ∀ e : Nat, e < 5 →
          ((rs.any fun r => r.ev == e) = true →
            (exScenarioOut.get (e : Int)).map List.length = some (evBytes rs e)) ∧
          ((rs.any fun r => r.ev == e) = false →
            exScenarioOut.get (e : Int) = exScenarioFiles.get (e : Int))) :=
  ⟨by decide,
    restart_ok_reconciliation exScenarioFiles (0, 300000000) exScenarioOut
      ((0 : Int), (300000000 : Int)) (by decide)⟩

/-- The replay loop on an overshoot: when the records before the last chunk
keep the running elapsed time strictly short of the target and the last
chunk's record pushes it strictly past, the loop exits with a mismatch and
the timing slot is untouched (the data streams already truncated by the
replayed records are not restored). -/
theorem restart_loop_mismatch_spec (target : TS) :
    ∀ (ls : List (List Char)) (rs : List TimingRec) (chunk : List Char) (r : TimingRec)
      (fuel : Nat) (rem : List Char) (consumed : Nat) (pos : Nat → Nat) (fs : Files) (el : TS),
      rem.length < fuel →
      chunkSeqB (ls ++ [chunk]) rem = true →
      parseSeqB ls rs = true →
      parse_timing (cLine chunk) = some r →
      (∀ x ∈ rs, x.ev < 5 → fs.get (x.ev : Int) ≠ none) →
      (r.ev < 5 → fs.get (r.ev : Int) ≠ none) →
      (∀ j : Nat, j < rs.length → tsGeb (elFold el (rs.take (j + 1))) target = false) →
      tsGeb (sudo_timespecadd (rDelay r) (elFold el rs)) target = true →
      sudo_timespecadd (rDelay r) (elFold el rs) ≠ target →
      ∃ fsm elm cm,
        restart_loop target fuel rem consumed pos fs el = (.mismatch, fsm, elm, cm) ∧
        fsm.get 5 = fs.get 5 := by
  intro ls
  induction ls with
  | nil =>
    intro rs chunk r fuel rem consumed pos fs el hf hch hps hlast hstr hlstr hbef hov hne
    obtain rfl := parseSeqB_nil_inv hps
    obtain ⟨hc0, -⟩ := chunkSeqB_cons (show chunkSeqB (chunk :: []) rem = true by simpa using hch)
    have hchne : chunk ≠ [] := by
      intro hcn
      rw [hcn, parse_timing_cLine_nil] at hlast
      exact Option.noConfusion hlast
    have hremne : rem ≠ [] := by
      intro hrn
      apply hchne
      rw [← hc0, hrn]
      rfl
    have hlen1 : 1 ≤ rem.length := List.length_pos.mpr hremne
    cases fuel with
    | zero => omega
    | succ fuel =>
      have hread : read_timing_record rem = (.record r, chunk.length) := by
        unfold read_timing_record
        rw [if_neg (by simpa using hremne), hc0]
        simp only [hlast]
      simp only [elFold, List.foldl_nil] at hov hne
      by_cases hev : r.ev < 5
      · obtain ⟨content, hcont⟩ : ∃ content, fs.get (r.ev : Int) = some content := by
          rcases hx : fs.get (r.ev : Int) with _ | cc
          · exact absurd hx (hlstr hev)
          · exact ⟨cc, rfl⟩
        refine ⟨fs.set (r.ev : Int) (some (truncTo content (pos r.ev + rBytes r))),
          sudo_timespecadd (rDelay r) el, consumed + chunk.length, ?_, ?_⟩
        · simp only [restart_loop, hread, hcont]
          rw [if_pos hev, if_pos hov, if_neg hne]
        · exact Files.get_set_ne _ _ _ _ (by omega)
      · refine ⟨fs, sudo_timespecadd (rDelay r) el, consumed + chunk.length, ?_, rfl⟩
        simp only [restart_loop, hread]
        rw [if_neg hev, if_pos hov, if_neg hne]
  | cons c₀ ls ih =>
    intro rs chunk r fuel rem consumed pos fs el hf hch hps hlast hstr hlstr hbef hov hne
    obtain ⟨r₀, rs', rfl, hp0, hps'⟩ := parseSeqB_cons_inv hps
    obtain ⟨hc0, hch'⟩ := chunkSeqB_cons
      (show chunkSeqB (c₀ :: (ls ++ [chunk])) rem = true by simpa using hch)
    have hchne : c₀ ≠ [] := by
      intro hcn
      rw [hcn, parse_timing_cLine_nil] at hp0
      exact Option.noConfusion hp0
    have hremne : rem ≠ [] := by
      intro hrn
      apply hchne
      rw [← hc0, hrn]
      rfl
    have hlen1 : 1 ≤ rem.length := List.length_pos.mpr hremne
    have hc0len : 1 ≤ c₀.length := List.length_pos.mpr hchne
    cases fuel with
    | zero => omega
    | succ fuel =>
      have hread : read_timing_record rem = (.record r₀, c₀.length) := by
        unfold read_timing_record
        rw [if_neg (by simpa using hremne), hc0]
        simp only [hp0]
      have hnot0 : ¬(tsGeb (sudo_timespecadd (rDelay r₀) el) target = true) := by
        have := hbef 0 (by simp)
        simp only [List.take_succ_cons, List.take_zero, elFold, List.foldl_cons,
          List.foldl_nil] at this
        simp [this]
      have hbef' : ∀ j : Nat, j < rs'.length →
          tsGeb (elFold (sudo_timespecadd (rDelay r₀) el) (rs'.take (j + 1))) target = false := by
        intro j hj
        have := hbef (j + 1) (by simp only [List.length_cons]; omega)
        rw [List.take_succ_cons] at this
        simpa [elFold, List.foldl_cons] using this
      have hov' : tsGeb (sudo_timespecadd (rDelay r)
          (elFold (sudo_timespecadd (rDelay r₀) el) rs')) target = true := by
        simpa [elFold, List.foldl_cons] using hov
      have hne' : sudo_timespecadd (rDelay r)
          (elFold (sudo_timespecadd (rDelay r₀) el) rs') ≠ target := by
        simpa [elFold, List.foldl_cons] using hne
      by_cases hev : r₀.ev < 5
      · obtain ⟨content, hcont⟩ : ∃ content, fs.get (r₀.ev : Int) = some content := by
          rcases hx : fs.get (r₀.ev : Int) with _ | cc
          · exact absurd hx (hstr r₀ (List.mem_cons_self _ _) hev)
          · exact ⟨cc, rfl⟩
        have hstr' : ∀ x ∈ rs', x.ev < 5 →
            (fs.set (r₀.ev : Int)
              (some (truncTo content (pos r₀.ev + rBytes r₀)))).get (x.ev : Int) ≠ none := by
          intro x hx hxev
          by_cases hxe : (x.ev : Int) = (r₀.ev : Int)
          · rw [hxe, Files.get_set_same _ _ _ (by omega) (by omega)]
            simp
          · rw [Files.get_set_ne _ _ _ _ (fun hh => hxe hh.symm)]
            exact hstr x (List.mem_cons_of_mem _ hx) hxev
        have hlstr' : r.ev < 5 →
            (fs.set (r₀.ev : Int)
              (some (truncTo content (pos r₀.ev + rBytes r₀)))).get (r.ev : Int) ≠ none := by
          intro hrev
          by_cases hxe : (r.ev : Int) = (r₀.ev : Int)
          · rw [hxe, Files.get_set_same _ _ _ (by omega) (by omega)]
            simp
          · rw [Files.get_set_ne _ _ _ _ (fun hh => hxe hh.symm)]
            exact hlstr hrev
        obtain ⟨fsm, elm, cm, hloop, h5⟩ := ih rs' chunk r fuel (rem.drop c₀.length)
          (consumed + c₀.length)
          (fun j => if j = r₀.ev then pos r₀.ev + rBytes r₀ else pos j)
          (fs.set (r₀.ev : Int) (some (truncTo content (pos r₀.ev + rBytes r₀))))
          (sudo_timespecadd (rDelay r₀) el)
          (by rw [List.length_drop]; omega) hch' hps' hlast hstr' hlstr' hbef' hov' hne'
        refine ⟨fsm, elm, cm, ?_, ?_⟩
        · simp only [restart_loop, hread, hcont]
          rw [if_pos hev, if_neg hnot0]
          exact hloop
        · rw [h5]
          exact Files.get_set_ne _ _ _ _ (by omega)
      · obtain ⟨fsm, elm, cm, hloop, h5⟩ := ih rs' chunk r fuel (rem.drop c₀.length)
          (consumed + c₀.length) pos fs (sudo_timespecadd (rDelay r₀) el)
          (by rw [List.length_drop]; omega) hch' hps' hlast
          (fun x hx hxev => hstr x (List.mem_cons_of_mem _ hx) hxev) hlstr hbef' hov' hne'
        refine ⟨fsm, elm, cm, ?_, h5⟩
        simp only [restart_loop, hread]
        rw [if_neg hev, if_neg hnot0]
        exact hloop

/-- C3 (amended): when no prefix of the timing records lands exactly on the
target — the running elapsed time strictly exceeds it when it first reaches
or passes it — `iolog_restart` fails with a resume-point mismatch and the
timing file is unchanged; the data streams already seek-truncated by the
replayed records, however, are not restored. -/
theorem restart_overshoot_mismatch (files0 : Files) (target : TS) (tc : List Char)
    (ls : List (List Char)) (rs : List TimingRec) (chunk : List Char) (r : TimingRec)
    (htc : files0.get 5 = some tc)
    (hch : chunkSeqB (ls ++ [chunk]) tc = true)
    (hps : parseSeqB ls rs = true)
    (hlast : parse_timing (cLine chunk) = some r)
    (hstr : ∀ x ∈ rs, x.ev < 5 → files0.get (x.ev : Int) ≠ none)
    (hlstr : r.ev < 5 → files0.get (r.ev : Int) ≠ none)
    (hbef : ∀ j : Nat, j < rs.length → tsGeb (elFold (0, 0) (rs.take (j + 1))) target = false)
    (hov : tsGeb (sudo_timespecadd (rDelay r) (elFold (0, 0) rs)) target = true)
    (hne : sudo_timespecadd (rDelay r) (elFold (0, 0) rs) ≠ target) :
    (iolog_restart files0 target).1 = RRes.mismatch ∧
    (iolog_restart files0 target).2.1.get 5 = some tc := by
  obtain ⟨fsm, elm, cm, hloop, h5⟩ := restart_loop_mismatch_spec target ls rs chunk r
    (tc.length + 1) tc 0 (fun _ => 0) files0 (0, 0) (by omega) hch hps hlast hstr hlstr
    hbef hov hne
  simp only [iolog_restart, htc, hloop]
  exact ⟨trivial, by rw [h5]; exact htc⟩

/-- Counterexample for C3: a mismatching restart leaves the stdout stream
truncated to the first record's offset and zero-extended by the second —
the session's files are not unchanged. -/
theorem restart_mismatch_files_changed :
    (iolog_restart exMismatchFiles (0, 250000000)).1 = RRes.mismatch ∧
    (iolog_restart exMismatchFiles (0, 250000000)).2.1.get 1 =
      some ("0123".toList ++ List.replicate 8 (Char.ofNat 0)) ∧
    exMismatchFiles.get 1 = some ("0123456789ab".toList) ∧
    (iolog_restart exMismatchFiles (0, 250000000)).2.1.get 1 ≠ exMismatchFiles.get 1 := by
  decide

/-- Witness for C3's amended theorem: the spec's mismatch scenario (target
0.25 s between records at 0.1 s and 0.3 s). -/
theorem restart_overshoot_mismatch_witness :
    exMismatchFiles.get 5 = some ("1 0.100000000 4\n1 0.200000000 8\n".toList) ∧
    ((iolog_restart exMismatchFiles (0, 250000000)).1 = RRes.mismatch ∧
      (iolog_restart exMismatchFiles (0, 250000000)).2.1.get 5 =
        some ("1 0.100000000 4\n1 0.200000000 8\n".toList)) :=
  ⟨by decide,
    restart_overshoot_mismatch exMismatchFiles (0, 250000000)
      ("1 0.100000000 4\n1 0.200000000 8\n".toList)
      ["1 0.100000000 4\n".toList] [⟨1, 0, 100000000, .bytes 4⟩]
      ("1 0.200000000 8\n".toList) ⟨1, 0, 200000000, .bytes 8⟩
      (by decide) (by decide) (by decide) (by decide) (by decide) (by decide)
      (by decide) (by decide) (by decide)⟩

end IologWriter
